import Mathlib

/-!
# gorep: a concurrent find/grep

A verification development for `gorep.go`.  The program walks a directory tree
with one goroutine per directory (`dive`) and one per file (`grep`); the
goroutines report on a buffered channel `chRelay` to the dispatcher `kick`,
which keeps the counter `nRoutines` of goroutines whose completion marker it
has not received yet and forwards accepted reports to `showReport`.

Conventions of the embedding
* a Go `string` is the list of its bytes, one `Char` per byte (`GoString`);
* the regular expression is the boolean function `pattern.MatchString`;
* the file system is a pair of functions `ReadDir`, `Open` (`World`);
* a goroutine body is the sequence of its effects (`Action`): its sends on
  `chRelay`, its writes to standard error and `os.Exit`;
* the goroutines and the channel together form a transition system (`step`),
  the scheduler being the sequence of labels that picks who moves next.

Assumptions
* the file system does not change during the run, so that what a goroutine
  will send is determined when it is started;
* a move of `kick` is one whole iteration of its loop (the receive and the
  statements that follow, `nRoutines++` and the `go` statement included), and
  a move of a goroutine is one send or one write; `showReport`, which runs in
  the main goroutine, is always ready to receive on `chNotify`;
* the variables of type `int` do not overflow;
* `file.Close()` has no effect on what is sent.
-/

namespace Gorep

/-! ## Data model -/

/-- A Go string: its bytes in order. -/
abbrev GoString := List Char

/-- The Go type `fileMode` (an `int32`, of which only four values are named). -/
abbrev fileMode := Int

/-- Source constant `FMODE_DIR`. -/
def FMODE_DIR : fileMode := 0
/-- Source constant `FMODE_FILE`. -/
def FMODE_FILE : fileMode := 1
/-- Source constant `FMODE_LINE`. -/
def FMODE_LINE : fileMode := 2
/-- Source constant `FMODE_INVALID`. -/
def FMODE_INVALID : fileMode := 3

/-- The struct `report` passed over both channels. -/
structure report where
  complete : Bool
  fmode : fileMode
  fpath : GoString
  line : GoString
  deriving DecidableEq, Repr

/-- The struct `gorep`; `pattern` stands for `pattern.MatchString`. -/
structure gorep where
  bRecursive : Bool
  bFind : Bool
  bGrep : Bool
  pattern : GoString → Bool

/-- What `ioutil.ReadDir` returns for one entry (`Name()`, `IsDir()`). -/
structure FileInfo where
  Name : GoString
  IsDir : Bool
  deriving DecidableEq, Repr

/-- The file system as the program sees it: `ReadDir dir` is the result of
`ioutil.ReadDir(dir)` and `Open fpath` the result of `os.Open(fpath)`, a
successfully opened file being given by the bytes that can be read from it
before the reader reports end of file or a read error.  The error value is
its message. -/
structure World where
  ReadDir : GoString → Except GoString (List FileInfo)
  Open : GoString → Except GoString GoString

/-- One effect of a goroutine. -/
inductive Action where
  | send (r : report)
  | stderr (msg : GoString)
  | exit (code : Int)
  deriving DecidableEq, Repr

/-! ## Standard library used by the program -/

/-- Removal of trailing slashes, the first loop of `path.Base`. -/
def stripSlashes (p : GoString) : GoString :=
  (p.reverse.dropWhile (fun c => c == '/')).reverse

/-- The part of a path after its last slash. -/
def lastElement (p : GoString) : GoString :=
  (p.reverse.takeWhile (fun c => c != '/')).reverse

/-- The function `path.Base`: the last element of the path, trailing slashes
removed; `.` for the empty path and `/` for a path of slashes only. -/
def pathBase (p : GoString) : GoString :=
  if p = [] then ".".toList
  else
    let q := lastElement (stripSlashes p)
    if q = [] then "/".toList else q

/-- The verb `%d`: a decimal integer. -/
def fmtInt (n : Int) : GoString := (toString n).toList

/-- The buffer size of `bufio.NewReader` (`defaultBufSize`). -/
def defaultBufSize : Nat := 4096

/-- The error result of `ReadSlice`. -/
inductive SliceErr where
  | nil
  | ErrBufferFull
  | EOF
  deriving DecidableEq, Repr

/-- The method `bufio.Reader.ReadSlice` with delimiter `\n`, for a reader whose
buffer holds `size` bytes, as a function of the bytes `s` not yet consumed:
the slice returned, the error, and the bytes left.  The delimiter is searched
in what the buffer can hold; if it is not there the call ends with
`ErrBufferFull` when `size` bytes are buffered, and with the rest of the file
and `EOF` when the file ends first.  (The file reports its end, or a read
error, by a read that returns no bytes; both are `EOF` here, the caller
`grep` not telling them apart.) -/
def ReadSlice (size : Nat) (s : GoString) : GoString × SliceErr × GoString :=
  let window := s.take size
  let i := window.indexOf '\n'
  if i < window.length then (s.take (i + 1), SliceErr.nil, s.drop (i + 1))
  else if size ≤ s.length then (window, SliceErr.ErrBufferFull, s.drop size)
  else (s, SliceErr.EOF, [])

/-- The method `bufio.Reader.ReadLine`: `none` when it returns an error,
else the line, the flag `isPrefix`, and the bytes left.  A slice that fills
the buffer is returned with `isPrefix` set (a final `\r` is put back);
otherwise the end of line (`\n` or `\r\n`) is removed. -/
def ReadLine (size : Nat) (s : GoString) : Option (GoString × Bool × GoString) :=
  match ReadSlice size s with
  | (line, SliceErr.ErrBufferFull, rest) =>
    if line.getLast? = some '\r' then some (line.dropLast, true, '\r' :: rest)
    else some (line, true, rest)
  | (line, err, rest) =>
    if line = [] then
      if err ≠ SliceErr.nil then none else some ([], false, rest)
    else if line.getLast? = some '\n' then
      let drop := if 1 < line.length ∧ line.dropLast.getLast? = some '\r' then 2 else 1
      some (line.take (line.length - drop), false, rest)
    else some (line, false, rest)

/-! ## The goroutines -/

/-- A deferred call: it runs when the body returns, and does not run when the
body ended the process with `os.Exit`. -/
def withDefer (deferred : List Action) (body : List Action) : List Action :=
  if body.any (fun a => match a with | Action.exit _ => true | _ => false) then body
  else body ++ deferred

/-- The completion marker deferred by `dive`. -/
def diveDone : report := { complete := true, fmode := FMODE_DIR, fpath := [], line := [] }

/-- The completion marker deferred by `grep`. -/
def grepDone : report := { complete := true, fmode := FMODE_LINE, fpath := [], line := [] }

/-- The report of one directory entry, as built in the loop of `dive`. -/
def entryReport (dir : GoString) (finfo : FileInfo) : report :=
  { complete := false
    fmode := if finfo.IsDir then FMODE_DIR else FMODE_FILE
    fpath := dir ++ "/".toList ++ finfo.Name
    line := [] }

/-- The body of `dive` after the `defer` statement. -/
def diveBody (w : World) (dir : GoString) : List Action :=
  match w.ReadDir dir with
  | Except.error err => [Action.stderr (err ++ "\n".toList), Action.exit 1]
  | Except.ok list => list.map (fun finfo => Action.send (entryReport dir finfo))

/-- The method `dive`. -/
def dive (w : World) (dir : GoString) : List Action :=
  withDefer [Action.send diveDone] (diveBody w dir)

/-- The reading loop of `grep`: `rest` is what is left of the file and
`lineNumber` the value of the variable before the call of `ReadLine`.  The
loop is bounded by `fuel` calls; `grepLoop_fuel` shows that the bound used by
`grep` is never reached. -/
def grepLoop (c : gorep) (fpath : GoString) (size : Nat) :
    Nat → Nat → GoString → List Action
  | 0, _, _ => []
  | fuel + 1, lineNumber, rest =>
    match ReadLine size rest with
    | none => []
    | some (line, isPrefix, rest') =>
      let lineNumber := lineNumber + 1
      let fullLine := if isPrefix then line ++ "@@".toList else line
      let tail := grepLoop c fpath size fuel lineNumber rest'
      if c.pattern fullLine then
        Action.send { complete := false, fmode := FMODE_LINE, fpath := fpath,
                      line := fmtInt lineNumber ++ ": ".toList ++ fullLine } :: tail
      else tail

/-- The body of `grep` after the first `defer` statement. -/
def grepBody (c : gorep) (w : World) (fpath : GoString) : List Action :=
  match w.Open fpath with
  | Except.error err => [Action.stderr (err ++ "\n".toList)]
  | Except.ok content => grepLoop c fpath defaultBufSize (content.length + 1) 0 content

/-- The method `grep`. -/
def grep (c : gorep) (w : World) (fpath : GoString) : List Action :=
  withDefer [Action.send grepDone] (grepBody c w fpath)

/-- What `showReport` writes for one report: `Sum.inl` is a line on standard
output and `Sum.inr` a line on standard error. -/
def showOne (repo : report) : GoString ⊕ GoString :=
  if repo.fmode = FMODE_DIR then Sum.inl ("[Dir ] ".toList ++ repo.fpath ++ "\n".toList)
  else if repo.fmode = FMODE_FILE then Sum.inl ("[File] ".toList ++ repo.fpath ++ "\n".toList)
  else if repo.fmode = FMODE_LINE then
    Sum.inl ("[Grep] ".toList ++ repo.fpath ++ ":".toList ++ repo.line ++ "\n".toList)
  else Sum.inr ("Illegal filemode (".toList ++ fmtInt repo.fmode ++ ")\n".toList)

/-- The function `showReport`: everything received on `chNotify` until the
channel is closed, written out in order. -/
def showReport (chNotify : List report) : List (GoString ⊕ GoString) :=
  chNotify.map showOne

/-! ## Derived notions used in the statements -/

/-- The reports a goroutine puts on `chRelay`, in order. -/
def sends : List Action → List report
  | [] => []
  | Action.send r :: rest => r :: sends rest
  | _ :: rest => sends rest

/-- Whether a goroutine ends the process with `os.Exit`. -/
def exits (body : List Action) : Bool :=
  body.any (fun a => match a with | Action.exit _ => true | _ => false)

/-- The report `grep` sends for the text `fullLine` at count `lineNumber`. -/
def lineReport (fpath : GoString) (x : Nat × GoString) : report :=
  { complete := false, fmode := FMODE_LINE, fpath := fpath,
    line := fmtInt x.1 ++ ": ".toList ++ x.2 }

/-- The successive values of `lineNumber` and `fullLine` in the loop of
`grep`, whether the pattern matches them or not. -/
def scan (size : Nat) : Nat → Nat → GoString → List (Nat × GoString)
  | 0, _, _ => []
  | fuel + 1, lineNumber, rest =>
    match ReadLine size rest with
    | none => []
    | some (line, isPrefix, rest') =>
      (lineNumber + 1, if isPrefix then line ++ "@@".toList else line)
        :: scan size fuel (lineNumber + 1) rest'

/-- A line without the `\r` that ends it, if there is one. -/
def chompCR (l : GoString) : GoString :=
  if l.getLast? = some '\r' then l.dropLast else l

/-- The lines of a text, `cur` being the part of the current line already
read: a line ends at `\n` (a `\r` right before it is not part of the line),
and the last line may lack its `\n`. -/
def linesFrom (cur : GoString) : GoString → List GoString
  | [] => if cur = [] then [] else [cur]
  | ch :: rest =>
    if ch = '\n' then chompCR cur :: linesFrom [] rest else linesFrom (cur ++ [ch]) rest

/-- The lines `L1..Ln` of a file. -/
def fileLines (content : GoString) : List GoString := linesFrom [] content

/-- Every line of the text has fewer than `size` bytes before its `\n` (or
before the end of the text), `k` bytes of the current line being read.  Every
byte before the `\n` counts, the `\r` of a line end `\r\n` included: the line
reader has to hold it in its buffer before it finds the `\n`. -/
def linesFit (size : Nat) : Nat → GoString → Bool
  | k, [] => decide (k < size)
  | k, ch :: rest =>
    if ch = '\n' then decide (k < size) && linesFit size 0 rest
    else linesFit size (k + 1) rest

/-- The reports the claim on `grep` expects: one per matching line, with the
1-based index of the line in the file. -/
def expectedLines (c : gorep) (fpath content : GoString) : List report :=
  (((fileLines content).enumFrom 1).filter (fun x => c.pattern x.2)).map (lineReport fpath)

/-- What `MatchString` computes for a pattern without metacharacters: whether
the pattern occurs in the text. -/
def literalMatch (pat : GoString) (s : GoString) : Bool :=
  s.tails.any (fun t => pat.isPrefixOf t)

/-- The loop of `grep` from the point where `lineNumber` is `n` and `s` is
left to read, as `grep` runs it: with more calls allowed than `s` has bytes. -/
def scanFrom (size n : Nat) (s : GoString) : List (Nat × GoString) :=
  scan size (s.length + 1) n s

/-- A file with one matching line per scenario B of the specification. -/
def scenarioB : World :=
  { ReadDir := fun _ => Except.error "not a directory".toList
    Open := fun p =>
      if p = "f.txt".toList then Except.ok "hello\nworld\nhello world\n".toList
      else Except.error "no such file".toList }

/-- The options of scenario B: pattern `hello`. -/
def scenarioBOptions : gorep :=
  { bRecursive := true, bFind := true, bGrep := true, pattern := literalMatch "hello".toList }

/-- A file of two lines: one of 4097 bytes, one byte more than the buffer
holds, and the line `hello`. -/
def longLineWorld : World :=
  { ReadDir := fun _ => Except.error "not a directory".toList
    Open := fun _ => Except.ok (List.replicate defaultBufSize 'a' ++ "b\nhello\n".toList) }

/-- A file whose only line is one byte longer than the buffer. -/
def overlongWorld : World :=
  { ReadDir := fun _ => Except.error "not a directory".toList
    Open := fun _ => Except.ok (List.replicate defaultBufSize 'a' ++ "b\n".toList) }

/-- Options with the empty pattern, which matches every text. -/
def matchAll : gorep :=
  { bRecursive := true, bFind := true, bGrep := true, pattern := fun _ => true }

/-- A world in which no directory can be listed and no file opened. -/
def brokenWorld : World :=
  { ReadDir := fun _ => Except.error "permission denied".toList
    Open := fun _ => Except.error "permission denied".toList }

/-! ## The dispatcher and the running program -/

/-- The capacity of `chRelay` (`make(chan report, 10)`). -/
def relayCapacity : Nat := 10

/-- The state of the running program: the variable `nRoutines` of `kick`, the
reports buffered in `chRelay` (oldest first), the goroutines started so far,
each with the effects it still has to perform, the reports `showReport` has
received on `chNotify`, what was written to standard error, whether `kick`
has left its loop and closed the channels, and the exit code once the process
has ended early (`os.Exit`, or 2 for a send on a closed channel).  The last
five fields are history: the number of `go` statements executed, the number of
completion markers received, the arguments of the calls of `dive` and `grep`,
and every report sent on `chRelay`. -/
structure State where
  nRoutines : Int
  chRelay : List report
  routines : List (List Action)
  chNotify : List report
  stderr : List GoString
  closed : Bool
  exited : Option Int
  spawned : Nat
  markers : Nat
  dives : List GoString
  greps : List GoString
  relayed : List report
  deriving DecidableEq, Repr

/-- The statement `chNotify <- relayRepo`. -/
def notify (s : State) (relayRepo : report) : State :=
  { s with chNotify := s.chNotify ++ [relayRepo] }

/-- The statements `nRoutines++; go this.dive(dir, chRelay)`. -/
def goDive (w : World) (s : State) (dir : GoString) : State :=
  { s with nRoutines := s.nRoutines + 1, routines := s.routines ++ [dive w dir],
           spawned := s.spawned + 1, dives := s.dives ++ [dir] }

/-- The statements `nRoutines++; go this.grep(fpath, chRelay)`. -/
def goGrep (c : gorep) (w : World) (s : State) (fpath : GoString) : State :=
  { s with nRoutines := s.nRoutines + 1, routines := s.routines ++ [grep c w fpath],
           spawned := s.spawned + 1, greps := s.greps ++ [fpath] }

/-- The body of the loop of `kick` once `relayRepo` has been received. -/
def kickReceive (c : gorep) (w : World) (s : State) (relayRepo : report) : State :=
  if relayRepo.complete then
    { s with nRoutines := s.nRoutines - 1, markers := s.markers + 1 }
  else if relayRepo.fmode = FMODE_DIR then
    let s := if c.bFind && c.pattern (pathBase relayRepo.fpath) then notify s relayRepo else s
    if c.bRecursive then goDive w s relayRepo.fpath else s
  else if relayRepo.fmode = FMODE_FILE then
    let s := if c.bFind && c.pattern (pathBase relayRepo.fpath) then notify s relayRepo else s
    if c.bGrep then goGrep c w s relayRepo.fpath else s
  else if relayRepo.fmode = FMODE_LINE then notify s relayRepo
  else
    { s with stderr :=
        s.stderr ++ ["Illegal filemode (".toList ++ fmtInt relayRepo.fmode ++ ")\n".toList] }

/-- The state in which `kick` enters its loop: the counter is one and `dive`
runs on the root. -/
def kickStart (w : World) (fpath : GoString) : State :=
  { nRoutines := 1, chRelay := [], routines := [dive w fpath], chNotify := [], stderr := [],
    closed := false, exited := none, spawned := 1, markers := 0, dives := [fpath],
    greps := [], relayed := [] }

/-- Who moves next: the dispatcher `kick`, or the goroutine started as the
`i`-th. -/
inductive Label where
  | kick
  | go (i : Nat)
  deriving DecidableEq, Repr

/-- One move of `kick`: with `nRoutines > 0` it receives from `chRelay` (and
waits while the channel is empty) and runs the loop body; otherwise it leaves
the loop and closes the channels. -/
def stepKick (c : gorep) (w : World) (s : State) : Option State :=
  if s.closed then none
  else if 0 < s.nRoutines then
    match s.chRelay with
    | [] => none
    | relayRepo :: rest => some (kickReceive c w { s with chRelay := rest } relayRepo)
  else some { s with closed := true }

/-- One move of the `i`-th goroutine: its next effect.  A send waits while
`chRelay` is full, and panics once the channel is closed. -/
def stepGo (s : State) (i : Nat) : Option State :=
  match s.routines[i]? with
  | none => none
  | some [] => none
  | some (Action.send r :: rest) =>
    if s.closed then some { s with exited := some 2 }
    else if s.chRelay.length < relayCapacity then
      some { s with chRelay := s.chRelay ++ [r], routines := s.routines.set i rest,
                    relayed := s.relayed ++ [r] }
    else none
  | some (Action.stderr msg :: rest) =>
    some { s with stderr := s.stderr ++ [msg], routines := s.routines.set i rest }
  | some (Action.exit code :: _) => some { s with exited := some code }

/-- One move of the program; `none` when the chosen party cannot move.
Nothing moves once the process has ended. -/
def step (c : gorep) (w : World) (l : Label) (s : State) : Option State :=
  if s.exited.isSome then none
  else
    match l with
    | Label.kick => stepKick c w s
    | Label.go i => stepGo s i

/-- The state after the moves of a schedule, `none` if one of them is not
possible. -/
def run (c : gorep) (w : World) : List Label → State → Option State
  | [], s => some s
  | l :: ls, s =>
    match step c w l s with
    | none => none
    | some s' => run c w ls s'

/-- The states the program can be in after `kick` was started on `fpath`. -/
def Reachable (c : gorep) (w : World) (fpath : GoString) (s : State) : Prop :=
  ∃ ls, run c w ls (kickStart w fpath) = some s

/-- A report of a directory entry (as opposed to a line or a marker). -/
def isEntry (r : report) : Bool :=
  !r.complete && (r.fmode == FMODE_DIR || r.fmode == FMODE_FILE)

/-- The directory at `dir` is the root of a tree of depth at most `depth`
all of whose directories can be listed. -/
def listable (w : World) : Nat → GoString → Bool
  | 0, _ => false
  | depth + 1, dir =>
    match w.ReadDir dir with
    | Except.error _ => false
    | Except.ok list =>
      list.all (fun finfo => !finfo.IsDir || listable w depth (dir ++ "/".toList ++ finfo.Name))

/-- Recursive descent from `dir`: every entry of the directory, each
directory among them followed by what is below it. -/
def descent (w : World) : Nat → GoString → List report
  | 0, _ => []
  | depth + 1, dir =>
    match w.ReadDir dir with
    | Except.error _ => []
    | Except.ok list =>
      list.flatMap (fun finfo =>
        entryReport dir finfo ::
          (if finfo.IsDir then descent w depth (dir ++ "/".toList ++ finfo.Name) else []))

/-- The immediate entries of a directory. -/
def immediateEntries (w : World) (dir : GoString) : List report :=
  match w.ReadDir dir with
  | Except.error _ => []
  | Except.ok list => list.map (entryReport dir)

/-- The tree `root/{a.txt, sub/b.txt}` of scenario A. -/
def scenarioA : World :=
  { ReadDir := fun p =>
      if p = "root".toList then
        Except.ok [{ Name := "a.txt".toList, IsDir := false }, { Name := "sub".toList, IsDir := true }]
      else if p = "root/sub".toList then
        Except.ok [{ Name := "b.txt".toList, IsDir := false }]
      else Except.error "no such directory".toList
    Open := fun p =>
      if p = "root/a.txt".toList then Except.ok "alpha\n".toList
      else if p = "root/sub/b.txt".toList then Except.ok "beta\n".toList
      else Except.error "no such file".toList }

/-- The options of scenario A: pattern `a`, `-f=true -r=true -g=false`. -/
def scenarioAOptions : gorep :=
  { bRecursive := true, bFind := true, bGrep := false, pattern := literalMatch "a".toList }

/-- A schedule of scenario A in which every goroutine runs to its end before
`kick` moves again. -/
def scenarioASchedule : List Label :=
  [Label.go 0, Label.go 0, Label.go 0, Label.kick, Label.kick, Label.kick,
   Label.go 1, Label.go 1, Label.kick, Label.kick, Label.kick]

/-! ## Notions used in the invariants -/

/-- The goroutine `kick` starts on receiving `relayRepo`, if any. -/
def spawnOf (c : gorep) (w : World) (relayRepo : report) : List (List Action) :=
  if relayRepo.complete then []
  else if relayRepo.fmode = FMODE_DIR then
    (if c.bRecursive then [dive w relayRepo.fpath] else [])
  else if relayRepo.fmode = FMODE_FILE then
    (if c.bGrep then [grep c w relayRepo.fpath] else [])
  else []

/-- What `kick` forwards to `chNotify` on receiving `relayRepo`, if anything. -/
def notifyOf (c : gorep) (relayRepo : report) : List report :=
  if relayRepo.complete then []
  else if relayRepo.fmode = FMODE_DIR ∨ relayRepo.fmode = FMODE_FILE then
    (if c.bFind && c.pattern (pathBase relayRepo.fpath) then [relayRepo] else [])
  else if relayRepo.fmode = FMODE_LINE then [relayRepo]
  else []

/-- The number of goroutines that have not performed their last effect. -/
def unfinished (routines : List (List Action)) : Nat :=
  routines.countP (fun l => !l.isEmpty)

/-- The number of completion markers among the reports. -/
def markersIn (l : List report) : Nat := l.countP (fun r => r.complete)

/-- The effects left to a goroutine end with the send of its completion
marker, and with no marker before, unless the goroutine ends the process. -/
def endsWithMarker : List Action → Bool
  | [] => false
  | Action.exit _ :: _ => true
  | Action.stderr _ :: rest => endsWithMarker rest
  | Action.send r :: rest =>
    if rest.isEmpty then r.complete else !r.complete && endsWithMarker rest

/-- The moves of the program, one constructor per case of `step`. -/
inductive Move (c : gorep) (w : World) : State → State → Prop where
  | close (s : State) (hx : s.exited = none) (hc : s.closed = false)
      (hn : ¬ 0 < s.nRoutines) : Move c w s { s with closed := true }
  | receive (s : State) (r : report) (rest : List report) (hx : s.exited = none)
      (hc : s.closed = false) (hn : 0 < s.nRoutines) (hr : s.chRelay = r :: rest) :
      Move c w s (kickReceive c w { s with chRelay := rest } r)
  | send (s : State) (pre post : List (List Action)) (r : report) (rest : List Action)
      (hx : s.exited = none) (hc : s.closed = false)
      (hr : s.routines = pre ++ (Action.send r :: rest) :: post)
      (hcap : s.chRelay.length < relayCapacity) :
      Move c w s { s with chRelay := s.chRelay ++ [r], routines := pre ++ rest :: post,
                          relayed := s.relayed ++ [r] }
  | sendClosed (s : State) (pre post : List (List Action)) (r : report) (rest : List Action)
      (hx : s.exited = none) (hc : s.closed = true)
      (hr : s.routines = pre ++ (Action.send r :: rest) :: post) :
      Move c w s { s with exited := some 2 }
  | stderr (s : State) (pre post : List (List Action)) (msg : GoString) (rest : List Action)
      (hx : s.exited = none)
      (hr : s.routines = pre ++ (Action.stderr msg :: rest) :: post) :
      Move c w s { s with stderr := s.stderr ++ [msg], routines := pre ++ rest :: post }
  | exit (s : State) (pre post : List (List Action)) (code : Int) (rest : List Action)
      (hx : s.exited = none)
      (hr : s.routines = pre ++ (Action.exit code :: rest) :: post) :
      Move c w s { s with exited := some code }

/-- The invariant of the counter: `nRoutines` is the number of goroutines
that still have effects to perform plus the number of completion markers
waiting in `chRelay`; it is the number of goroutines started minus the number
of markers received; every goroutine still running ends with its marker;
a report waits in `chRelay` only if a marker is behind it or a goroutine is
still running; and once `kick` has closed the channels the counter is zero
and the process has not ended early. -/
structure CounterInv (s : State) : Prop where
  count : s.nRoutines = ((unfinished s.routines + markersIn s.chRelay : Nat) : Int)
  hist : s.nRoutines = (s.spawned : Int) - (s.markers : Int)
  started : s.routines.length = s.spawned
  wf : ∀ l ∈ s.routines, l = [] ∨ endsWithMarker l = true
  tail : s.chRelay = [] ∨ (∃ m, s.chRelay.getLast? = some m ∧ m.complete = true)
    ∨ 0 < unfinished s.routines
  closed : s.closed = true → s.nRoutines = 0 ∧ s.exited = none

/-- Scenario A after `dive` has listed the root and `kick` has received the
first report. -/
def scenarioAMid : State :=
  (run scenarioAOptions scenarioA (scenarioASchedule.take 4)
    (kickStart scenarioA "root".toList)).getD (kickStart scenarioA "root".toList)

/-- Scenario A at the end of the schedule. -/
def scenarioAEnd : State :=
  (run scenarioAOptions scenarioA scenarioASchedule
    (kickStart scenarioA "root".toList)).getD (kickStart scenarioA "root".toList)

/-- The invariant of a run without `-r`: `dive` was started on the root only,
every entry report a goroutine has sent or still has to send is an immediate
entry of the root, and what waits in `chRelay` or was forwarded to `chNotify`
was sent by a goroutine and is no completion marker. -/
structure FlatInv (w : World) (root : GoString) (s : State) : Prop where
  dives : s.dives = [root]
  pending : ∀ l ∈ s.routines, ∀ r ∈ sends l, isEntry r = true → r ∈ immediateEntries w root
  relay : ∀ r ∈ s.chRelay, r ∈ s.relayed
  notified : ∀ r ∈ s.chNotify, r ∈ s.relayed ∧ r.complete = false
  relayed : ∀ r ∈ s.relayed, isEntry r = true → r ∈ immediateEntries w root

/-- The options of scenario A without `-r`. -/
def scenarioAFlatOptions : gorep :=
  { bRecursive := false, bFind := true, bGrep := false, pattern := literalMatch "a".toList }

/-- A schedule without `-r`: `dive` lists the root, `kick` receives the two
entries and the marker and closes the channels. -/
def scenarioAFlatSchedule : List Label :=
  [Label.go 0, Label.go 0, Label.go 0, Label.kick, Label.kick, Label.kick, Label.kick]

/-- Scenario A without `-r`, run to the end. -/
def scenarioAFlatEnd : State :=
  (run scenarioAFlatOptions scenarioA scenarioAFlatSchedule
    (kickStart scenarioA "root".toList)).getD (kickStart scenarioA "root".toList)

/-- What is below a report: the descent from its path, for the report of a
directory that `kick` descends into. -/
def below (c : gorep) (w : World) (depth : Nat) (r : report) : List report :=
  if r.complete = false ∧ r.fmode = FMODE_DIR ∧ c.bRecursive = true
  then descent w depth r.fpath else []

/-- The reports the goroutines still have to send. -/
def pendingReports (routines : List (List Action)) : List report :=
  routines.flatMap sends

/-- How often `x` occurs among the entry reports of `l`. -/
def cE (x : report) (l : List report) : Nat := (l.filter isEntry).count x

/-- How often `x` occurs below the reports of `l`. -/
def cB (c : gorep) (w : World) (depth : Nat) (x : report) (l : List report) : Nat :=
  (l.flatMap (below c w depth)).count x

/-- How often `x` occurs among the entry reports of `l` whose base name the
pattern matches. -/
def cM (c : gorep) (x : report) (l : List report) : Nat :=
  ((l.filter isEntry).filter (fun r => c.pattern (pathBase r.fpath))).count x

/-- A directory report that `kick` will descend into names a listable
directory. -/
def dirOK (c : gorep) (w : World) (depth : Nat) (r : report) : Prop :=
  r.complete = false → r.fmode = FMODE_DIR → c.bRecursive = true →
    listable w depth r.fpath = true

/-- The invariant of a recursive run on a listable tree: the process has not
ended and no goroutine will end it; every directory still to be descended
into is listable; each entry of the descent from the root either was sent, or
is still to be sent by a running goroutine, or lies below a directory report
that is still to be sent or waits in `chRelay`; and the entry reports
forwarded are the matching ones among those `kick` has received. -/
structure TreeInv (c : gorep) (w : World) (root : GoString) (depth : Nat) (s : State) :
    Prop where
  alive : s.exited = none
  noexit : ∀ l ∈ s.routines, exits l = false
  okRelay : ∀ r ∈ s.chRelay, dirOK c w depth r
  okPending : ∀ r ∈ pendingReports s.routines, dirOK c w depth r
  account : ∀ x, cE x s.relayed + cE x (pendingReports s.routines)
      + cB c w depth x (pendingReports s.routines) + cB c w depth x s.chRelay
      = (descent w depth root).count x
  output : c.bFind = true → ∀ x, cE x s.chNotify + cM c x s.chRelay = cM c x s.relayed

/-- Moves that handling a received report costs at most, apart from what lies
below it: those of the marker of the `dive` it starts, or of the `grep`. -/
def localCost (c : gorep) (w : World) (r : report) : Nat :=
  if r.complete then 0
  else if r.fmode = FMODE_DIR then (if c.bRecursive then 2 else 0)
  else if r.fmode = FMODE_FILE then (if c.bGrep then 2 * (grep c w r.fpath).length else 0)
  else 0

/-- The cost of a list of entries still to be sent and received. -/
def costs (c : gorep) (w : World) (l : List report) : Nat :=
  (l.map (fun e => 2 + localCost c w e)).sum

/-- A bound on the moves a report waiting in `chRelay` still causes. -/
def weight (c : gorep) (w : World) (depth : Nat) (r : report) : Nat :=
  1 + localCost c w r + costs c w (below c w depth r)

/-- A bound on the moves an effect of a goroutine still causes. -/
def actionWeight (c : gorep) (w : World) (depth : Nat) : Action → Nat
  | Action.send r => 1 + weight c w depth r
  | _ => 1

/-- A bound on the moves the effects of one goroutine still cause. -/
def routineWeight (c : gorep) (w : World) (depth : Nat) (l : List Action) : Nat :=
  (l.map (actionWeight c w depth)).sum

/-- A bound on the number of moves left. -/
def measure (c : gorep) (w : World) (depth : Nat) (s : State) : Nat :=
  if s.exited.isSome then 0
  else 1 + (if s.closed then 0 else 1)
    + (s.routines.map (routineWeight c w depth)).sum
    + (s.chRelay.map (weight c w depth)).sum

/-- The tree `perm/{locked/, z.txt}` in which the directory `perm/locked`
cannot be listed. -/
def lockedWorld : World :=
  { ReadDir := fun p =>
      if p = "perm".toList then
        Except.ok [{ Name := "locked".toList, IsDir := true },
                   { Name := "z.txt".toList, IsDir := false }]
      else Except.error "permission denied".toList
    Open := fun _ => Except.error "permission denied".toList }

/-- A schedule on `lockedWorld`: `dive` sends the first entry of the root,
`kick` receives it and starts `dive` on `perm/locked`, which writes its error
and ends the process. -/
def lockedSchedule : List Label :=
  [Label.go 0, Label.kick, Label.go 1, Label.go 1]

/-- The state `lockedWorld` is in after `lockedSchedule`. -/
def lockedEnd : State :=
  (run scenarioAOptions lockedWorld lockedSchedule
    (kickStart lockedWorld "perm".toList)).getD (kickStart lockedWorld "perm".toList)

/-- A file of two lines: one of 4095 bytes ended by `\r\n`, so that the line
and its `\r` fill the buffer, and the line `hello`. -/
def crlfWorld : World :=
  { ReadDir := fun _ => Except.error "not a directory".toList
    Open := fun _ =>
      Except.ok (List.replicate (defaultBufSize - 1) 'a' ++ "\r\nhello\n".toList) }

/-! ## Properties of the line reader -/

theorem ReadLine_nil (size : Nat) (h : 0 < size) : ReadLine size [] = none := by
  have : ¬ size ≤ 0 := by omega
  simp [ReadLine, ReadSlice, this]

theorem ReadSlice_line (size : Nat) (pre rest : GoString)
    (hpre : '\n' ∉ pre) (hlen : pre.length < size) :
    ReadSlice size (pre ++ '\n' :: rest) = (pre ++ ['\n'], SliceErr.nil, rest) := by
  have hw : List.take size (pre ++ '\n' :: rest)
      = pre ++ '\n' :: List.take (size - pre.length - 1) rest := by
    rw [List.take_append_eq_append_take, List.take_of_length_le (by omega)]
    obtain ⟨k, hk⟩ : ∃ k, size - pre.length = k + 1 := ⟨size - pre.length - 1, by omega⟩
    rw [hk, List.take_succ_cons]; simp
  have hi : List.indexOf '\n' (pre ++ '\n' :: List.take (size - pre.length - 1) rest)
      = pre.length := by
    rw [List.indexOf_append_of_not_mem hpre, List.indexOf_cons_self]; rfl
  have h1 : List.take (pre.length + 1) (pre ++ '\n' :: rest) = pre ++ ['\n'] := by
    rw [List.take_append_eq_append_take, List.take_of_length_le (by omega)]
    simp
  have h2 : List.drop (pre.length + 1) (pre ++ '\n' :: rest) = rest := by
    rw [List.drop_append_eq_append_drop, List.drop_of_length_le (by omega)]
    simp
  unfold ReadSlice
  simp only [hw, hi, h1, h2]
  simp

theorem ReadLine_line (size : Nat) (pre rest : GoString)
    (hpre : '\n' ∉ pre) (hlen : pre.length < size) :
    ReadLine size (pre ++ '\n' :: rest) = some (chompCR pre, false, rest) := by
  unfold ReadLine
  rw [ReadSlice_line size pre rest hpre hlen]
  by_cases hcr : pre.getLast? = some '\r'
  · have hne : pre ≠ [] := by rintro rfl; simp at hcr
    have h1 : 1 < pre.length + 1 := by
      have := List.length_pos.mpr hne; omega
    simp [chompCR, hcr, h1, List.dropLast_append_of_ne_nil, List.take_append_eq_append_take]
    rw [List.dropLast_eq_take]
  · simp [chompCR, hcr, List.take_append_eq_append_take]

theorem ReadSlice_full (size : Nat) (p rest : GoString)
    (hp : '\n' ∉ p) (hlen : p.length = size) :
    ReadSlice size (p ++ rest) = (p, SliceErr.ErrBufferFull, rest) := by
  have hw : List.take size (p ++ rest) = p := by
    rw [← hlen]; simp
  have hd : List.drop size (p ++ rest) = rest := by
    rw [← hlen]; simp
  have hi : ¬ List.indexOf '\n' p < p.length := by
    rw [List.indexOf_lt_length]; exact hp
  unfold ReadSlice
  simp only [hw, hd, hi, if_false]
  simp [← hlen]

theorem ReadLine_fragment (size : Nat) (p rest : GoString)
    (hp : '\n' ∉ p) (hlen : p.length = size) (hcr : p.getLast? ≠ some '\r') :
    ReadLine size (p ++ rest) = some (p, true, rest) := by
  unfold ReadLine
  rw [ReadSlice_full size p rest hp hlen]
  simp [hcr]

theorem ReadLine_fragment_cr (size : Nat) (q rest : GoString)
    (hq : '\n' ∉ q) (hlen : q.length + 1 = size) :
    ReadLine size (q ++ '\r' :: rest) = some (q, true, '\r' :: rest) := by
  have h := ReadSlice_full size (q ++ ['\r']) rest (by simp [hq]) (by simp [hlen])
  unfold ReadLine
  rw [show q ++ '\r' :: rest = (q ++ ['\r']) ++ rest by simp, h]
  simp

theorem ReadLine_last (size : Nat) (s : GoString)
    (hs : '\n' ∉ s) (hne : s ≠ []) (hlen : s.length < size) :
    ReadLine size s = some (s, false, []) := by
  have hw : List.take size s = s := List.take_of_length_le (by omega)
  have hi : ¬ List.indexOf '\n' s < s.length := by
    rw [List.indexOf_lt_length]; exact hs
  have hsz : ¬ size ≤ s.length := by omega
  have hl : s.getLast? ≠ some '\n' := by
    intro h
    exact hs (List.mem_of_getLast?_eq_some h)
  unfold ReadLine ReadSlice
  simp only [hw, hi, hsz, if_false]
  simp [hne, hl]

theorem ReadSlice_cases (size : Nat) (s : GoString) :
    (∃ i, i < s.length ∧ ReadSlice size s = (s.take (i + 1), SliceErr.nil, s.drop (i + 1)))
    ∨ (size ≤ s.length ∧ ReadSlice size s = (s.take size, SliceErr.ErrBufferFull, s.drop size))
    ∨ (s.length < size ∧ ReadSlice size s = (s, SliceErr.EOF, [])) := by
  unfold ReadSlice
  by_cases hi : List.indexOf '\n' (List.take size s) < (List.take size s).length
  · left
    refine ⟨List.indexOf '\n' (List.take size s), ?_, by simp only [hi, if_true]⟩
    simp only [List.length_take] at hi; omega
  · right
    by_cases hsz : size ≤ s.length
    · left; exact ⟨hsz, by simp only [hi, hsz, if_true, if_false]⟩
    · right; exact ⟨by omega, by simp only [hi, hsz, if_false]⟩

/-- Every successful call of `ReadLine` consumes at least one byte. -/
theorem ReadLine_consumes (size : Nat) (hsize : 2 ≤ size) (s line rest : GoString) (b : Bool)
    (h : ReadLine size s = some (line, b, rest)) : rest.length < s.length := by
  unfold ReadLine at h
  rcases ReadSlice_cases size s with ⟨i, hi, hrs⟩ | ⟨hsz, hrs⟩ | ⟨hsz, hrs⟩
  · rw [hrs] at h
    have hl : (List.drop (i + 1) s).length < s.length := by
      simp only [List.length_drop]; omega
    dsimp only at h
    split_ifs at h <;> simp at h <;> (try (obtain ⟨-, -, rfl⟩ := h)) <;> exact hl
  · rw [hrs] at h
    dsimp only at h
    split_ifs at h <;> simp at h <;> obtain ⟨-, -, rfl⟩ := h <;>
      simp only [List.length_cons, List.length_drop] <;> omega
  · rw [hrs] at h
    dsimp only at h
    have hpos : s ≠ [] → 0 < s.length := fun hne => List.length_pos.mpr hne
    split_ifs at h <;> simp at h <;> (try (obtain ⟨-, -, rfl⟩ := h)) <;>
      simp only [List.length_nil] <;> apply hpos <;>
      first | assumption | (rename_i hx; exact absurd (by decide) hx)

/-! ## The loop of `grep` -/

/-- The loop of `grep` sends the report of each scanned text that matches. -/
theorem grepLoop_scan (c : gorep) (fpath : GoString) (size : Nat) :
    ∀ (fuel n : Nat) (s : GoString),
      grepLoop c fpath size fuel n s
        = (((scan size fuel n s).filter (fun x => c.pattern x.2)).map
            (fun x => Action.send (lineReport fpath x))) := by
  intro fuel
  induction fuel with
  | zero => intro n s; simp [grepLoop, scan]
  | succ fuel ih =>
    intro n s
    unfold grepLoop scan
    cases hrl : ReadLine size s with
    | none => simp
    | some x =>
      obtain ⟨line, isPrefix, rest⟩ := x
      simp only [ih]
      generalize (if isPrefix = true then line ++ "@@".toList else line) = fullLine
      by_cases hm : c.pattern fullLine = true
      · simp [hm, List.filter_cons, lineReport]
      · simp [hm, List.filter_cons]

/-- With more calls allowed than the file has bytes, the bound on the loop
plays no role: the loop ends because `ReadLine` returns an error. -/
theorem scan_fuel (size : Nat) (hsize : 2 ≤ size) :
    ∀ (fuel fuel' n : Nat) (s : GoString), s.length < fuel → s.length < fuel' →
      scan size fuel n s = scan size fuel' n s := by
  intro fuel
  induction fuel with
  | zero => intro fuel' n s h; omega
  | succ fuel ih =>
    intro fuel' n s h h'
    obtain ⟨k, rfl⟩ : ∃ k, fuel' = k + 1 := ⟨fuel' - 1, by omega⟩
    unfold scan
    cases hrl : ReadLine size s with
    | none => rfl
    | some x =>
      obtain ⟨line, isPrefix, rest⟩ := x
      have hlt := ReadLine_consumes size hsize s line rest isPrefix hrl
      simp only
      rw [ih k (n + 1) rest (by omega) (by omega)]

theorem grepLoop_fuel (c : gorep) (fpath : GoString) (size : Nat) (hsize : 2 ≤ size)
    (fuel fuel' n : Nat) (s : GoString) (h : s.length < fuel) (h' : s.length < fuel') :
    grepLoop c fpath size fuel n s = grepLoop c fpath size fuel' n s := by
  rw [grepLoop_scan, grepLoop_scan, scan_fuel size hsize fuel fuel' n s h h']

theorem defaultBufSize_ge : 2 ≤ defaultBufSize := by decide

/-! ## Files whose lines fit the buffer -/

theorem split_at_newline (s : GoString) :
    '\n' ∉ s ∨ ∃ pre rest, s = pre ++ '\n' :: rest ∧ '\n' ∉ pre := by
  induction s with
  | nil => left; simp
  | cons ch s ih =>
    by_cases hch : ch = '\n'
    · right; exact ⟨[], s, by simp [hch], by simp⟩
    · rcases ih with h | ⟨pre, rest, rfl, hpre⟩
      · left
        simp only [List.mem_cons, not_or]
        exact ⟨fun e => hch e.symm, h⟩
      · right
        refine ⟨ch :: pre, rest, by simp, ?_⟩
        simp only [List.mem_cons, not_or]
        exact ⟨fun e => hch e.symm, hpre⟩

theorem linesFrom_line (pre rest : GoString) (hpre : '\n' ∉ pre) :
    ∀ cur, linesFrom cur (pre ++ '\n' :: rest) = chompCR (cur ++ pre) :: linesFrom [] rest := by
  induction pre with
  | nil => intro cur; simp [linesFrom]
  | cons ch pre ih =>
    intro cur
    simp only [List.mem_cons, not_or] at hpre
    have hch : ch ≠ '\n' := fun e => hpre.1 e.symm
    simp only [List.cons_append, linesFrom, hch, if_false, List.append_eq]
    rw [ih hpre.2]; simp

theorem linesFrom_last (s : GoString) (hs : '\n' ∉ s) :
    ∀ cur, linesFrom cur s = if cur ++ s = [] then [] else [cur ++ s] := by
  induction s with
  | nil => intro cur; simp [linesFrom]
  | cons ch s ih =>
    intro cur
    simp only [List.mem_cons, not_or] at hs
    have hch : ch ≠ '\n' := fun e => hs.1 e.symm
    simp only [linesFrom, hch, if_false]
    rw [ih hs.2]; simp

theorem linesFit_line (size : Nat) (pre rest : GoString) (hpre : '\n' ∉ pre) :
    ∀ k, linesFit size k (pre ++ '\n' :: rest)
      = (decide (k + pre.length < size) && linesFit size 0 rest) := by
  induction pre with
  | nil => intro k; simp [linesFit]
  | cons ch pre ih =>
    intro k
    simp only [List.mem_cons, not_or] at hpre
    have hch : ch ≠ '\n' := fun e => hpre.1 e.symm
    simp only [List.cons_append, linesFit, hch, if_false, List.append_eq]
    rw [ih hpre.2]
    simp only [List.length_cons]
    congr 2
    apply propext; constructor <;> intro h <;> omega

theorem linesFit_last (size : Nat) (s : GoString) (hs : '\n' ∉ s) :
    ∀ k, linesFit size k s = decide (k + s.length < size) := by
  induction s with
  | nil => intro k; simp [linesFit]
  | cons ch s ih =>
    intro k
    simp only [List.mem_cons, not_or] at hs
    have hch : ch ≠ '\n' := fun e => hs.1 e.symm
    simp only [linesFit, hch, if_false]
    rw [ih hs.2]
    simp only [List.length_cons]
    congr 1
    apply propext; constructor <;> intro h <;> omega

theorem scan_nil (size : Nat) (hsize : 0 < size) (fuel n : Nat) : scan size fuel n [] = [] := by
  cases fuel with
  | zero => rfl
  | succ fuel => simp [scan, ReadLine_nil size hsize]

/-- When every line fits the buffer, the loop of `grep` sees the lines of the
file, numbered from one. -/
theorem scan_fits (size : Nat) (hsize : 2 ≤ size) :
    ∀ (fuel n : Nat) (s : GoString), s.length < fuel → linesFit size 0 s = true →
      scan size fuel n s = (fileLines s).enumFrom (n + 1) := by
  intro fuel
  induction fuel with
  | zero => intro n s h; omega
  | succ fuel ih =>
    intro n s hfuel hfit
    rcases split_at_newline s with hs | ⟨pre, rest, rfl, hpre⟩
    · by_cases hne : s = []
      · subst hne
        simp [scan_nil size (by omega), fileLines, linesFrom]
      · rw [linesFit_last size s hs] at hfit
        have hlen : s.length < size := by simpa using hfit
        unfold scan
        rw [ReadLine_last size s hs hne hlen]
        simp [scan_nil size (by omega), fileLines, linesFrom_last s hs, hne]
    · rw [linesFit_line size pre rest hpre] at hfit
      simp only [Bool.and_eq_true, decide_eq_true_eq, Nat.zero_add] at hfit
      unfold scan
      rw [ReadLine_line size pre rest hpre hfit.1]
      have hlen : rest.length < fuel := by
        simp only [List.length_append, List.length_cons] at hfuel; omega
      simp only [Bool.false_eq_true, if_false]
      rw [ih (n + 1) rest hlen hfit.2]
      simp [fileLines, linesFrom_line pre rest hpre]

theorem scanFrom_step (size : Nat) (hsize : 2 ≤ size) (n : Nat) (s : GoString) :
    scanFrom size n s =
      match ReadLine size s with
      | none => []
      | some (line, isPrefix, rest) =>
        (n + 1, if isPrefix then line ++ "@@".toList else line) :: scanFrom size (n + 1) rest := by
  unfold scanFrom
  rw [scan]
  cases hrl : ReadLine size s with
  | none => rfl
  | some x =>
    obtain ⟨line, isPrefix, rest⟩ := x
    have hlt := ReadLine_consumes size hsize s line rest isPrefix hrl
    simp only
    rw [scan_fuel size hsize s.length (rest.length + 1) (n + 1) rest hlt (by omega)]

theorem scanFrom_nil (size : Nat) (hsize : 2 ≤ size) (n : Nat) : scanFrom size n [] = [] := by
  rw [scanFrom_step size hsize, ReadLine_nil size (by omega)]

/-- Fragments that fill the buffer are each scanned with `@@` appended and
each counted as a line. -/
theorem scanFrom_fragments (size : Nat) (hsize : 2 ≤ size) (s : GoString) :
    ∀ (ps : List GoString) (n : Nat),
      (∀ p ∈ ps, p.length = size ∧ '\n' ∉ p ∧ p.getLast? ≠ some '\r') →
      scanFrom size n (ps.flatten ++ s)
        = (ps.enumFrom (n + 1)).map (fun x => (x.1, x.2 ++ "@@".toList))
          ++ scanFrom size (n + ps.length) s := by
  intro ps
  induction ps with
  | nil => intro n _; simp
  | cons p ps ih =>
    intro n hps
    have hp := hps p (List.mem_cons_self _ _)
    rw [scanFrom_step size hsize]
    rw [show (p :: ps).flatten ++ s = p ++ (ps.flatten ++ s) by simp]
    rw [ReadLine_fragment size p _ hp.2.1 hp.1 hp.2.2]
    simp only [if_true]
    rw [ih (n + 1) (fun q hq => hps q (List.mem_cons_of_mem _ hq))]
    simp [List.enumFrom_cons, Nat.add_assoc, Nat.add_comm 1]

/-- The last fragment of a line, the one that ends at `\n`, is scanned as it
is, without `@@`. -/
theorem scanFrom_line (size : Nat) (hsize : 2 ≤ size) (n : Nat) (r rest : GoString)
    (hr : '\n' ∉ r) (hlen : r.length < size) :
    scanFrom size n (r ++ '\n' :: rest) = (n + 1, chompCR r) :: scanFrom size (n + 1) rest := by
  rw [scanFrom_step size hsize, ReadLine_line size r rest hr hlen]
  simp

theorem grepLoop_scanFrom (c : gorep) (fpath : GoString) (size n : Nat) (s : GoString) :
    grepLoop c fpath size (s.length + 1) n s
      = (((scanFrom size n s).filter (fun x => c.pattern x.2)).map
          (fun x => Action.send (lineReport fpath x))) :=
  grepLoop_scan c fpath size (s.length + 1) n s

/-! ## What one goroutine sends -/

theorem sends_append (l₁ l₂ : List Action) : sends (l₁ ++ l₂) = sends l₁ ++ sends l₂ := by
  induction l₁ with
  | nil => rfl
  | cons a l ih => cases a <;> simp [sends, ih]

theorem sends_map_send {α : Type} (f : α → report) (l : List α) :
    sends (l.map (fun x => Action.send (f x))) = l.map f := by
  induction l with
  | nil => rfl
  | cons a l ih => simp [sends, ih]

theorem exits_map_send {α : Type} (f : α → report) (l : List α) :
    exits (l.map (fun x => Action.send (f x))) = false := by
  induction l with
  | nil => rfl
  | cons a l ih => simp [exits] at ih ⊢

theorem withDefer_of_not_exits (deferred body : List Action) (h : exits body = false) :
    withDefer deferred body = body ++ deferred := by
  unfold withDefer
  unfold exits at h
  rw [h]; simp

theorem withDefer_of_exits (deferred body : List Action) (h : exits body = true) :
    withDefer deferred body = body := by
  unfold withDefer
  unfold exits at h
  rw [h]; simp

theorem dive_ok (w : World) (dir : GoString) (list : List FileInfo)
    (h : w.ReadDir dir = Except.ok list) :
    dive w dir = list.map (fun finfo => Action.send (entryReport dir finfo))
      ++ [Action.send diveDone] := by
  unfold dive
  rw [withDefer_of_not_exits]
  · simp [diveBody, h]
  · simp only [diveBody, h]
    exact exits_map_send _ _

theorem dive_error (w : World) (dir err : GoString)
    (h : w.ReadDir dir = Except.error err) :
    dive w dir = [Action.stderr (err ++ "\n".toList), Action.exit 1] := by
  unfold dive
  rw [withDefer_of_exits]
  · simp [diveBody, h]
  · simp [diveBody, h, exits]

theorem grep_ok (c : gorep) (w : World) (fpath content : GoString)
    (h : w.Open fpath = Except.ok content) :
    grep c w fpath
      = (((scanFrom defaultBufSize 0 content).filter (fun x => c.pattern x.2)).map
          (fun x => Action.send (lineReport fpath x))) ++ [Action.send grepDone] := by
  unfold grep
  rw [withDefer_of_not_exits]
  · simp [grepBody, h, grepLoop_scanFrom]
  · simp only [grepBody, h, grepLoop_scanFrom]
    exact exits_map_send _ _

theorem grep_error (c : gorep) (w : World) (fpath err : GoString)
    (h : w.Open fpath = Except.error err) :
    grep c w fpath = [Action.stderr (err ++ "\n".toList), Action.send grepDone] := by
  unfold grep
  rw [withDefer_of_not_exits]
  · simp [grepBody, h]
  · simp [grepBody, h, exits]

theorem sends_grep_ok (c : gorep) (w : World) (fpath content : GoString)
    (h : w.Open fpath = Except.ok content) :
    sends (grep c w fpath)
      = (((scanFrom defaultBufSize 0 content).filter (fun x => c.pattern x.2)).map
          (lineReport fpath)) ++ [grepDone] := by
  rw [grep_ok c w fpath content h, sends_append, sends_map_send]
  rfl

theorem countP_complete_lineReport (fpath : GoString) (l : List (Nat × GoString)) :
    (l.map (lineReport fpath)).countP (fun r => r.complete) = 0 := by
  induction l with
  | nil => rfl
  | cons a l ih => simp [List.countP_cons, lineReport] at ih ⊢

theorem countP_complete_entryReport (dir : GoString) (l : List FileInfo) :
    (l.map (entryReport dir)).countP (fun r => r.complete) = 0 := by
  induction l with
  | nil => rfl
  | cons a l ih => simp [List.countP_cons, entryReport] at ih ⊢

/-! ## Claims on `grep` and `dive` -/

theorem literalMatch_cons (pat : GoString) (ch : Char) (s : GoString) :
    literalMatch pat (ch :: s) = (pat.isPrefixOf (ch :: s) || literalMatch pat s) := by
  simp [literalMatch, List.tails]

theorem literalMatch_hello_replicate (t : GoString) :
    ∀ n, literalMatch "hello".toList (List.replicate n 'a' ++ t)
      = literalMatch "hello".toList t := by
  intro n
  induction n with
  | zero => simp
  | succ n ih =>
    rw [List.replicate_succ, List.cons_append, literalMatch_cons, ih]
    simp [List.isPrefixOf]

theorem not_mem_replicate_a (n : Nat) : '\n' ∉ List.replicate n 'a' := by
  intro h
  have := List.eq_of_mem_replicate h
  exact absurd this (by decide)

theorem getLast?_replicate_a (n : Nat) : (List.replicate n 'a').getLast? ≠ some '\r' := by
  intro h
  have := List.eq_of_mem_replicate (List.mem_of_getLast?_eq_some h)
  exact absurd this (by decide)

/-- C3 (as amended): for a file in which every line has fewer than 4096
bytes before its `\n` or before the end of the file (the `\r` of a line end
`\r\n` counted among them), `grep` sends one report per line the pattern
matches, in file order, with payload `<i>: <Li>` for the 1-based index `i` of
the line `Li`, the line end `\n` or `\r\n` not being part of `Li`, and then
the completion marker. -/
theorem grep_reports_matching_lines (c : gorep) (w : World) (fpath content : GoString)
    (hopen : w.Open fpath = Except.ok content)
    (hfit : linesFit defaultBufSize 0 content = true) :
    sends (grep c w fpath) = expectedLines c fpath content ++ [grepDone] := by
  rw [sends_grep_ok c w fpath content hopen]
  unfold scanFrom expectedLines
  rw [scan_fits defaultBufSize defaultBufSize_ge (content.length + 1) 0 content (by omega) hfit]

/-- Scenario B of the specification: lines 1 and 3 are reported, line 2 is not. -/
theorem grep_reports_matching_lines_witness :
    sends (grep scenarioBOptions scenarioB "f.txt".toList)
      = [ { complete := false, fmode := FMODE_LINE, fpath := "f.txt".toList,
            line := "1: hello".toList },
          { complete := false, fmode := FMODE_LINE, fpath := "f.txt".toList,
            line := "3: hello world".toList },
          grepDone ] :=
  (grep_reports_matching_lines scenarioBOptions scenarioB "f.txt".toList
    "hello\nworld\nhello world\n".toList rfl (by decide)).trans (by decide)

/-- The run of `grep` on `longLineWorld`, and what the claim expects there. -/
theorem long_line_run :
    sends (grep scenarioBOptions longLineWorld "f.txt".toList)
        = [lineReport "f.txt".toList (3, "hello".toList), grepDone]
    ∧ expectedLines scenarioBOptions "f.txt".toList
          (List.replicate defaultBufSize 'a' ++ "b\nhello\n".toList)
        = [lineReport "f.txt".toList (2, "hello".toList)] := by
  have hm1 : literalMatch "hello".toList (List.replicate defaultBufSize 'a' ++ "@@".toList)
      = false := by
    rw [literalMatch_hello_replicate]; decide
  have hm2 : literalMatch "hello".toList (List.replicate defaultBufSize 'a' ++ "b".toList)
      = false := by
    rw [literalMatch_hello_replicate]; decide
  have hnl : '\n' ∉ List.replicate defaultBufSize 'a' ++ "b".toList := by
    intro h
    rcases List.mem_append.mp h with h | h
    · exact not_mem_replicate_a _ h
    · exact absurd h (by decide)
  have hcr : chompCR ([] ++ (List.replicate defaultBufSize 'a' ++ "b".toList))
      = List.replicate defaultBufSize 'a' ++ "b".toList := by
    have : (List.replicate defaultBufSize 'a' ++ "b".toList).getLast? = some 'b' := by
      rw [show "b".toList = ['b'] from rfl]; simp
    simp [chompCR, this]
  have hfrag := scanFrom_fragments defaultBufSize defaultBufSize_ge "b\nhello\n".toList
    [List.replicate defaultBufSize 'a'] 0 (by
      intro p hp
      simp only [List.mem_singleton] at hp
      subst hp
      exact ⟨List.length_replicate _ _, not_mem_replicate_a _, getLast?_replicate_a _⟩)
  have hlines := linesFrom_line (List.replicate defaultBufSize 'a' ++ "b".toList)
    "hello\n".toList hnl []
  rw [hcr] at hlines
  have h2 : scanFrom defaultBufSize (0 + [List.replicate defaultBufSize 'a'].length)
      "b\nhello\n".toList = [(2, "b".toList), (3, "hello".toList)] := by decide
  have h3 : linesFrom [] "hello\n".toList = ["hello".toList] := by decide
  have hm3 : literalMatch "hello".toList "b".toList = false := by decide
  have hm4 : literalMatch "hello".toList "hello".toList = true := by decide
  have hcontent : List.replicate defaultBufSize 'a' ++ "b\nhello\n".toList
      = (List.replicate defaultBufSize 'a' ++ "b".toList) ++ '\n' :: "hello\n".toList := by
    rw [List.append_assoc]; rfl
  rw [h2] at hfrag
  rw [h3] at hlines
  simp only [List.flatten_cons, List.flatten_nil, List.append_nil] at hfrag
  constructor
  · rw [sends_grep_ok scenarioBOptions longLineWorld "f.txt".toList _ rfl, hfrag]
    generalize List.replicate defaultBufSize 'a' = big at hm1 ⊢
    simp only [String.toList] at hm1 hm3 hm4
    simp [List.enumFrom, List.filter, scenarioBOptions, hm1, hm3, hm4]
  · unfold expectedLines fileLines
    rw [hcontent, hlines]
    generalize List.replicate defaultBufSize 'a' = big at hm2 ⊢
    simp only [String.toList] at hm2 hm4
    simp [List.enumFrom, List.filter, scenarioBOptions, hm2, hm4]

/-- The run of `grep` on `crlfWorld`, and what the claim expects there: the
`\r` of the line end counts as a byte of the line for the buffer. -/
theorem crlf_line_run :
    sends (grep scenarioBOptions crlfWorld "f.txt".toList)
        = [lineReport "f.txt".toList (3, "hello".toList), grepDone]
    ∧ expectedLines scenarioBOptions "f.txt".toList
          (List.replicate (defaultBufSize - 1) 'a' ++ "\r\nhello\n".toList)
        = [lineReport "f.txt".toList (2, "hello".toList)] := by
  have hm1 : literalMatch "hello".toList
      (List.replicate (defaultBufSize - 1) 'a' ++ "@@".toList) = false := by
    rw [literalMatch_hello_replicate]; decide
  have hm2 : literalMatch "hello".toList (List.replicate (defaultBufSize - 1) 'a')
      = false := by
    have h := literalMatch_hello_replicate [] (defaultBufSize - 1)
    rw [List.append_nil] at h
    rw [h]; decide
  have hqlen : (List.replicate (defaultBufSize - 1) 'a').length + 1 = defaultBufSize := by
    rw [List.length_replicate]; decide
  have hc1 : "\r\nhello\n".toList = '\r' :: "\nhello\n".toList := rfl
  have hc2 : List.replicate (defaultBufSize - 1) 'a' ++ "\r\nhello\n".toList
      = (List.replicate (defaultBufSize - 1) 'a' ++ ['\r']) ++ '\n' :: "hello\n".toList := by
    rw [List.append_assoc]; rfl
  have hnl : '\n' ∉ List.replicate (defaultBufSize - 1) 'a' ++ ['\r'] := by
    intro h
    rcases List.mem_append.mp h with h | h
    · exact not_mem_replicate_a _ h
    · exact absurd h (by decide)
  have hcr : chompCR ([] ++ (List.replicate (defaultBufSize - 1) 'a' ++ ['\r']))
      = List.replicate (defaultBufSize - 1) 'a' := by
    simp [chompCR]
  have hscan : scanFrom defaultBufSize 0
      (List.replicate (defaultBufSize - 1) 'a' ++ '\r' :: "\nhello\n".toList)
      = (1, List.replicate (defaultBufSize - 1) 'a' ++ "@@".toList)
        :: scanFrom defaultBufSize 1 ('\r' :: "\nhello\n".toList) := by
    rw [scanFrom_step defaultBufSize defaultBufSize_ge,
      ReadLine_fragment_cr defaultBufSize _ _ (not_mem_replicate_a _) hqlen]
    rfl
  have h2 : scanFrom defaultBufSize 1 ('\r' :: "\nhello\n".toList)
      = [(2, []), (3, "hello".toList)] := by decide
  have hlines := linesFrom_line (List.replicate (defaultBufSize - 1) 'a' ++ ['\r'])
    "hello\n".toList hnl []
  have h3 : linesFrom [] "hello\n".toList = ["hello".toList] := by decide
  have hm3 : literalMatch "hello".toList [] = false := by decide
  have hm4 : literalMatch "hello".toList "hello".toList = true := by decide
  rw [hcr, h3] at hlines
  rw [h2] at hscan
  constructor
  · rw [sends_grep_ok scenarioBOptions crlfWorld "f.txt".toList _ rfl, hc1, hscan]
    generalize List.replicate (defaultBufSize - 1) 'a' = big at hm1 ⊢
    simp only [String.toList] at hm1 hm3 hm4
    simp [List.filter, scenarioBOptions, hm1, hm3, hm4]
  · unfold expectedLines fileLines
    rw [hc2, hlines]
    generalize List.replicate (defaultBufSize - 1) 'a' = big at hm2 ⊢
    simp only [String.toList] at hm2 hm4
    simp [List.enumFrom, List.filter, scenarioBOptions, hm2, hm4]

/-- C3 fails for a line longer than the buffer: in the file made of a line of
4096 bytes `a` and one `b`, and of the line `hello`, the second line is the
one that matches, and `grep` reports it as `3: hello`, the first line having
been counted twice.  The same happens when a line of 4095 bytes is ended by
`\r\n`: the `\r` is read into the buffer with the line and fills it. -/
theorem grep_long_line_counterexample :
    (sends (grep scenarioBOptions longLineWorld "f.txt".toList)
        = [lineReport "f.txt".toList (3, "hello".toList), grepDone]
      ∧ expectedLines scenarioBOptions "f.txt".toList
          (List.replicate defaultBufSize 'a' ++ "b\nhello\n".toList)
        = [lineReport "f.txt".toList (2, "hello".toList)])
    ∧ (sends (grep scenarioBOptions crlfWorld "f.txt".toList)
        = [lineReport "f.txt".toList (3, "hello".toList), grepDone]
      ∧ expectedLines scenarioBOptions "f.txt".toList
          (List.replicate (defaultBufSize - 1) 'a' ++ "\r\nhello\n".toList)
        = [lineReport "f.txt".toList (2, "hello".toList)]) :=
  ⟨long_line_run, crlf_line_run⟩

theorem scanFrom_last (size : Nat) (hsize : 2 ≤ size) (n : Nat) (s : GoString)
    (hs : '\n' ∉ s) (hlen : s.length < size) :
    scanFrom size n s = if s = [] then [] else [(n + 1, s)] := by
  by_cases hne : s = []
  · subst hne; simp [scanFrom_nil size hsize]
  · rw [scanFrom_step size hsize, ReadLine_last size s hs hne hlen]
    simp [hne, scanFrom_nil size hsize]

theorem enumFrom_fragments_cons (n : Nat) (p : GoString) (frags : List GoString) :
    ((p :: frags).enumFrom (n + 1)).map (fun x => (x.1, x.2 ++ "@@".toList))
      = (n + 1, p ++ "@@".toList)
        :: (frags.enumFrom (n + 1 + 1)).map (fun x => (x.1, x.2 ++ "@@".toList)) := by
  simp [List.enumFrom_cons]

/-- A line of any length is read as fragments that fill the buffer, each
scanned with `@@` appended and counted as a line, followed by what is left of
the line, scanned without `@@`: with its line end removed when the line ends
at `\n`, and as it is, if anything is left, when the file ends. -/
theorem scanFrom_long_line (size : Nat) (hsize : 2 ≤ size) :
    ∀ (k : Nat) (L : GoString), L.length ≤ k → '\n' ∉ L →
      ∃ (frags : List GoString) (lastRaw : GoString),
        frags.flatten ++ lastRaw = L
        ∧ lastRaw.length < size
        ∧ (∀ f ∈ frags, f ≠ [] ∧ f.length ≤ size)
        ∧ (size ≤ L.length → frags ≠ [])
        ∧ (∀ n rest, scanFrom size n (L ++ '\n' :: rest)
            = (frags.enumFrom (n + 1)).map (fun x => (x.1, x.2 ++ "@@".toList))
              ++ (n + frags.length + 1, chompCR lastRaw)
                :: scanFrom size (n + frags.length + 1) rest)
        ∧ (∀ n, scanFrom size n L
            = (frags.enumFrom (n + 1)).map (fun x => (x.1, x.2 ++ "@@".toList))
              ++ (if lastRaw = [] then [] else [(n + frags.length + 1, lastRaw)])) := by
  intro k
  induction k with
  | zero =>
    intro L hk hL
    have hnil : L = [] := List.length_eq_zero.mp (by omega)
    subst hnil
    refine ⟨[], [], rfl, by simp; omega, by simp, by simp; omega, fun n rest => ?_, fun n => ?_⟩
    · simpa using scanFrom_line size hsize n [] rest (by simp) (by simp; omega)
    · simp [scanFrom_nil size hsize]
  | succ k ih =>
    intro L hk hL
    by_cases hshort : L.length < size
    · refine ⟨[], L, rfl, hshort, by simp, fun h => by omega, fun n rest => ?_, fun n => ?_⟩
      · simpa using scanFrom_line size hsize n L rest hL hshort
      · simpa using scanFrom_last size hsize n L hL hshort
    · have hlong : size ≤ L.length := by omega
      have hsplit : L.take size ++ L.drop size = L := List.take_append_drop size L
      have hplen : (L.take size).length = size := by
        rw [List.length_take]; omega
      have hpnl : '\n' ∉ L.take size := fun h => hL (List.mem_of_mem_take h)
      have hdnl : '\n' ∉ L.drop size := fun h => hL (List.mem_of_mem_drop h)
      by_cases hcr : (L.take size).getLast? = some '\r'
      · -- the fragment ends in `\r`, which is given back
        have hpne : L.take size ≠ [] := by
          intro h; rw [h] at hplen; simp at hplen; omega
        have hq : L.take size = (L.take size).dropLast ++ ['\r'] := by
          have h1 := List.dropLast_append_getLast? '\r' (by rw [hcr]; exact rfl)
          exact h1.symm
        have hqlen : (L.take size).dropLast.length + 1 = size := by
          rw [List.length_dropLast, hplen]; omega
        have hqnl : '\n' ∉ (L.take size).dropLast :=
          fun h => hpnl (List.mem_of_mem_dropLast h)
        have hL' : L = (L.take size).dropLast ++ '\r' :: L.drop size := by
          conv_lhs => rw [← hsplit, hq]
          simp
        have hlen' : ('\r' :: L.drop size).length ≤ k := by
          simp only [List.length_cons, List.length_drop]; omega
        have hnl' : '\n' ∉ '\r' :: L.drop size := by
          intro h
          rcases List.mem_cons.mp h with h | h
          · exact absurd h (by decide)
          · exact hdnl h
        obtain ⟨frags, lastRaw, h1, h2, h3, -, h5, h6⟩ := ih _ hlen' hnl'
        generalize (L.take size).dropLast = q at hq hqlen hqnl hL'
        refine ⟨q :: frags, lastRaw, ?_, h2, ?_, fun _ => by simp, fun n rest => ?_,
          fun n => ?_⟩
        · rw [List.flatten_cons, List.append_assoc, h1, ← hL']
        · intro f hf
          rcases List.mem_cons.mp hf with h | h
          · subst h
            refine ⟨?_, by omega⟩
            intro h0; rw [h0] at hqlen; simp at hqlen; omega
          · exact h3 f h
        · rw [hL', enumFrom_fragments_cons, scanFrom_step size hsize,
            show (q ++ '\r' :: L.drop size) ++ '\n' :: rest
              = q ++ '\r' :: (L.drop size ++ '\n' :: rest) by simp,
            ReadLine_fragment_cr size q _ hqnl hqlen]
          simp only [if_true, List.cons_append]
          rw [show '\r' :: (L.drop size ++ '\n' :: rest)
              = ('\r' :: L.drop size) ++ '\n' :: rest by simp, h5 (n + 1) rest]
          simp only [List.length_cons]
          rw [show n + 1 + frags.length + 1 = n + (frags.length + 1) + 1 by omega]
        · rw [hL', enumFrom_fragments_cons, scanFrom_step size hsize,
            ReadLine_fragment_cr size q _ hqnl hqlen]
          simp only [if_true, List.cons_append]
          rw [h6 (n + 1)]
          simp only [List.length_cons]
          rw [show n + 1 + frags.length + 1 = n + (frags.length + 1) + 1 by omega]
      · -- the fragment is the whole buffer
        have hlen' : (L.drop size).length ≤ k := by
          simp only [List.length_drop]; omega
        obtain ⟨frags, lastRaw, h1, h2, h3, -, h5, h6⟩ := ih _ hlen' hdnl
        generalize L.take size = p at hsplit hplen hpnl hcr
        generalize L.drop size = L' at hsplit h1 h5 h6
        subst hsplit
        refine ⟨p :: frags, lastRaw, ?_, h2, ?_, fun _ => by simp, fun n rest => ?_,
          fun n => ?_⟩
        · rw [List.flatten_cons, List.append_assoc, h1]
        · intro f hf
          rcases List.mem_cons.mp hf with h | h
          · subst h
            refine ⟨?_, by omega⟩
            intro h0; rw [h0] at hplen; simp at hplen; omega
          · exact h3 f h
        · rw [enumFrom_fragments_cons, scanFrom_step size hsize, List.append_assoc,
            ReadLine_fragment size p _ hpnl hplen hcr]
          simp only [if_true, List.cons_append]
          rw [h5 (n + 1) rest]
          simp only [List.length_cons]
          rw [show n + 1 + frags.length + 1 = n + (frags.length + 1) + 1 by omega]
        · rw [enumFrom_fragments_cons, scanFrom_step size hsize,
            ReadLine_fragment size p _ hpnl hplen hcr]
          simp only [if_true, List.cons_append]
          rw [h6 (n + 1)]
          simp only [List.length_cons]
          rw [show n + 1 + frags.length + 1 = n + (frags.length + 1) + 1 by omega]

/-- C9 (as amended): a line longer than the buffer of the line reader is
handled as consecutive fragments, each counted as a line of its own and
tested on its own: the fragments that fill the buffer, each tested and sent
with `@@` appended, and then what is left of the line, tested and sent
without `@@` (with its line end removed when the line ends at `\n`; when the
file ends instead, what is left is sent as it is, and nothing is sent for it
if nothing is left). -/
theorem grep_long_line_fragments (L : GoString) (hL : '\n' ∉ L)
    (hlong : defaultBufSize ≤ L.length) :
    ∃ (frags : List GoString) (lastRaw : GoString),
      frags ≠ []
      ∧ frags.flatten ++ lastRaw = L
      ∧ lastRaw.length < defaultBufSize
      ∧ (∀ f ∈ frags, f ≠ [] ∧ f.length ≤ defaultBufSize)
      ∧ (∀ (c : gorep) (fpath : GoString) (n : Nat) (rest : GoString),
          grepLoop c fpath defaultBufSize ((L ++ '\n' :: rest).length + 1) n
              (L ++ '\n' :: rest)
            = ((((frags.enumFrom (n + 1)).map (fun x => (x.1, x.2 ++ "@@".toList))).filter
                  (fun x => c.pattern x.2)).map (fun x => Action.send (lineReport fpath x)))
              ++ (if c.pattern (chompCR lastRaw)
                  then [Action.send (lineReport fpath (n + frags.length + 1, chompCR lastRaw))]
                  else [])
              ++ grepLoop c fpath defaultBufSize (rest.length + 1) (n + frags.length + 1) rest)
      ∧ (∀ (c : gorep) (fpath : GoString) (n : Nat),
          grepLoop c fpath defaultBufSize (L.length + 1) n L
            = ((((frags.enumFrom (n + 1)).map (fun x => (x.1, x.2 ++ "@@".toList))).filter
                  (fun x => c.pattern x.2)).map (fun x => Action.send (lineReport fpath x)))
              ++ (if lastRaw ≠ [] ∧ c.pattern lastRaw = true
                  then [Action.send (lineReport fpath (n + frags.length + 1, lastRaw))]
                  else [])) := by
  obtain ⟨frags, lastRaw, h1, h2, h3, h4, h5, h6⟩ :=
    scanFrom_long_line defaultBufSize defaultBufSize_ge L.length L (Nat.le_refl _) hL
  refine ⟨frags, lastRaw, h4 hlong, h1, h2, h3, fun c fpath n rest => ?_, fun c fpath n => ?_⟩
  · rw [grepLoop_scanFrom, grepLoop_scanFrom, h5 n rest]
    by_cases hm : c.pattern (chompCR lastRaw) = true
    · simp [List.filter_cons, hm]
    · simp [List.filter_cons, hm]
  · rw [grepLoop_scanFrom, h6 n]
    by_cases hne : lastRaw = []
    · simp [hne]
    · by_cases hm : c.pattern lastRaw = true
      · simp [List.filter_cons, hne, hm]
      · simp [List.filter_cons, hne, hm]

/-- A line of 4097 bytes, 4096 times `a` and one `b`: it has fragments as the
theorem says, and `grep` sends the fragment of 4096 bytes with `@@` and the
fragment `b` without. -/
theorem grep_long_line_fragments_witness :
    (∃ (frags : List GoString) (lastRaw : GoString),
      frags ≠ []
      ∧ frags.flatten ++ lastRaw = List.replicate defaultBufSize 'a' ++ "b".toList
      ∧ lastRaw.length < defaultBufSize
      ∧ ∀ (c : gorep) (fpath : GoString) (n : Nat) (rest : GoString),
          grepLoop c fpath defaultBufSize
              (((List.replicate defaultBufSize 'a' ++ "b".toList) ++ '\n' :: rest).length + 1) n
              ((List.replicate defaultBufSize 'a' ++ "b".toList) ++ '\n' :: rest)
            = ((((frags.enumFrom (n + 1)).map (fun x => (x.1, x.2 ++ "@@".toList))).filter
                  (fun x => c.pattern x.2)).map (fun x => Action.send (lineReport fpath x)))
              ++ (if c.pattern (chompCR lastRaw)
                  then [Action.send (lineReport fpath (n + frags.length + 1, chompCR lastRaw))]
                  else [])
              ++ grepLoop c fpath defaultBufSize (rest.length + 1) (n + frags.length + 1) rest)
    ∧ sends (grep matchAll overlongWorld "f.txt".toList)
        = [lineReport "f.txt".toList (1, List.replicate defaultBufSize 'a' ++ "@@".toList),
           lineReport "f.txt".toList (2, "b".toList),
           grepDone] := by
  constructor
  · obtain ⟨frags, lastRaw, h1, h2, h3, -, h5, -⟩ :=
      grep_long_line_fragments (List.replicate defaultBufSize 'a' ++ "b".toList)
        (by
          intro h
          rcases List.mem_append.mp h with h | h
          · exact not_mem_replicate_a _ h
          · exact absurd h (by decide))
        (by rw [List.length_append, List.length_replicate]; exact Nat.le_add_right _ _)
    exact ⟨frags, lastRaw, h1, h2, h3, h5⟩
  · rw [sends_grep_ok matchAll overlongWorld "f.txt".toList _ rfl]
    have hfrag := scanFrom_fragments defaultBufSize defaultBufSize_ge "b\n".toList
      [List.replicate defaultBufSize 'a'] 0 (by
        intro p hp
        simp only [List.mem_singleton] at hp
        subst hp
        exact ⟨List.length_replicate _ _, not_mem_replicate_a _, getLast?_replicate_a _⟩)
    have h2 : scanFrom defaultBufSize (0 + [List.replicate defaultBufSize 'a'].length)
        "b\n".toList = [(2, "b".toList)] := by decide
    rw [h2] at hfrag
    simp only [List.flatten_cons, List.flatten_nil, List.append_nil] at hfrag
    rw [hfrag]
    generalize List.replicate defaultBufSize 'a' = big
    simp [List.enumFrom, List.filter, matchAll]

/-- C9 fails for the last fragment: of the line of 4096 bytes `a` followed by
`b`, the fragment `b` is tested and sent as it is, not as `b@@`. -/
theorem grep_last_fragment_counterexample :
    sends (grep matchAll overlongWorld "f.txt".toList)
      = [lineReport "f.txt".toList (1, List.replicate defaultBufSize 'a' ++ "@@".toList),
         lineReport "f.txt".toList (2, "b".toList),
         grepDone]
    ∧ lineReport "f.txt".toList (2, "b".toList)
        ≠ lineReport "f.txt".toList (2, "b".toList ++ "@@".toList) := by
  refine ⟨?_, by decide⟩
  rw [sends_grep_ok matchAll overlongWorld "f.txt".toList _ rfl]
  have hfrag := scanFrom_fragments defaultBufSize defaultBufSize_ge "b\n".toList
    [List.replicate defaultBufSize 'a'] 0 (by
      intro p hp
      simp only [List.mem_singleton] at hp
      subst hp
      exact ⟨List.length_replicate _ _, not_mem_replicate_a _, getLast?_replicate_a _⟩)
  have h2 : scanFrom defaultBufSize (0 + [List.replicate defaultBufSize 'a'].length)
      "b\n".toList = [(2, "b".toList)] := by decide
  rw [h2] at hfrag
  simp only [List.flatten_cons, List.flatten_nil, List.append_nil] at hfrag
  rw [hfrag]
  generalize List.replicate defaultBufSize 'a' = big
  simp [List.enumFrom, List.filter, matchAll]

/-- C5 (as amended): when the directory can be listed, `dive` sends one
report per entry and then exactly one completion marker, its final action;
when the listing fails, `dive` writes the error, ends the process with
`os.Exit(1)` and sends nothing. -/
theorem dive_completion_marker (w : World) (dir : GoString) :
    (∀ list, w.ReadDir dir = Except.ok list →
        sends (dive w dir) = list.map (entryReport dir) ++ [diveDone]
        ∧ (dive w dir).getLast? = some (Action.send diveDone)
        ∧ (sends (dive w dir)).countP (fun r => r.complete) = 1
        ∧ exits (dive w dir) = false)
    ∧ (∀ err, w.ReadDir dir = Except.error err →
        dive w dir = [Action.stderr (err ++ "\n".toList), Action.exit 1]
        ∧ sends (dive w dir) = []) := by
  constructor
  · intro list h
    rw [dive_ok w dir list h]
    refine ⟨?_, by simp, ?_, ?_⟩
    · rw [sends_append, sends_map_send]; rfl
    · rw [sends_append, sends_map_send, List.countP_append, countP_complete_entryReport]
      rfl
    · have := exits_map_send (entryReport dir) list
      unfold exits at this ⊢
      rw [List.any_append, this]; rfl
  · intro err h
    rw [dive_error w dir err h]
    exact ⟨rfl, rfl⟩

/-- The root of scenario A: two entry reports, then the marker. -/
theorem dive_completion_marker_witness :
    sends (dive scenarioA "root".toList)
      = [{ complete := false, fmode := FMODE_FILE, fpath := "root/a.txt".toList, line := [] },
         { complete := false, fmode := FMODE_DIR, fpath := "root/sub".toList, line := [] },
         diveDone] :=
  (((dive_completion_marker scenarioA "root".toList).1 _ rfl).1).trans (by decide)

/-- C5 fails on the fatal path: when the listing fails, `os.Exit` ends the
process before the deferred send, and no completion marker is sent. -/
theorem dive_fatal_counterexample :
    (sends (dive brokenWorld "root".toList)).countP (fun r => r.complete) = 0
    ∧ dive brokenWorld "root".toList
        = [Action.stderr "permission denied\n".toList, Action.exit 1] := by
  decide

/-- C6: `grep` sends exactly one completion marker, as its final action, and
never ends the process; when the file cannot be opened the marker is the only
report it sends. -/
theorem grep_completion_marker (c : gorep) (w : World) (fpath : GoString) :
    (grep c w fpath).getLast? = some (Action.send grepDone)
    ∧ (sends (grep c w fpath)).countP (fun r => r.complete) = 1
    ∧ exits (grep c w fpath) = false
    ∧ (∀ err, w.Open fpath = Except.error err → sends (grep c w fpath) = [grepDone]) := by
  cases h : w.Open fpath with
  | error err =>
    rw [grep_error c w fpath err h]
    exact ⟨rfl, rfl, rfl, fun _ _ => rfl⟩
  | ok content =>
    refine ⟨?_, ?_, ?_, fun err he => by simp at he⟩
    · rw [grep_ok c w fpath content h]; simp
    · rw [sends_grep_ok c w fpath content h, List.countP_append, countP_complete_lineReport]
      rfl
    · rw [grep_ok c w fpath content h]
      have := exits_map_send (lineReport fpath)
        ((scanFrom defaultBufSize 0 content).filter (fun x => c.pattern x.2))
      unfold exits at this ⊢
      rw [List.any_append, this]; rfl

/-- A file that cannot be opened: the marker is all that is sent. -/
theorem grep_completion_marker_witness :
    sends (grep scenarioBOptions brokenWorld "f.txt".toList) = [grepDone] :=
  (grep_completion_marker scenarioBOptions brokenWorld "f.txt".toList).2.2.2
    "permission denied".toList rfl

/-! ## Claims on the filter of `kick` and on `showReport` -/

/-- C2: with `bFind` set, `kick` forwards a Directory or File report to
`chNotify` if and only if the pattern matches `path.Base` of its path; the
decision is the same with and without `bGrep`, and whether a directory is
descended into depends on `bRecursive` alone, not on the match. -/
theorem kick_find_filter (c : gorep) (w : World) (s : State) (r : report)
    (hfind : c.bFind = true) (hr : r.complete = false)
    (hmode : r.fmode = FMODE_DIR ∨ r.fmode = FMODE_FILE) :
    (kickReceive c w s r).chNotify
        = (if c.pattern (pathBase r.fpath) then s.chNotify ++ [r] else s.chNotify)
    ∧ (kickReceive { c with bGrep := true } w s r).chNotify
        = (kickReceive { c with bGrep := false } w s r).chNotify
    ∧ (r.fmode = FMODE_DIR →
        (kickReceive c w s r).routines
          = (if c.bRecursive then s.routines ++ [dive w r.fpath] else s.routines)) := by
  have hne : FMODE_FILE ≠ FMODE_DIR := by decide
  rcases hmode with hm | hm
  · refine ⟨?_, ?_, fun _ => ?_⟩
    · unfold kickReceive
      simp only [hr, hm, hfind, Bool.true_and, Bool.false_eq_true, if_false, if_true]
      by_cases hp : c.pattern (pathBase r.fpath) = true <;>
        by_cases hrec : c.bRecursive = true <;> simp [hp, hrec, notify, goDive]
    · unfold kickReceive
      simp only [hr, hm, Bool.false_eq_true, if_false, if_true]
    · unfold kickReceive
      simp only [hr, hm, hfind, Bool.true_and, Bool.false_eq_true, if_false, if_true]
      by_cases hp : c.pattern (pathBase r.fpath) = true <;>
        by_cases hrec : c.bRecursive = true <;> simp [hp, hrec, notify, goDive]
  · refine ⟨?_, ?_, fun h => absurd (hm.symm.trans h) hne⟩
    · unfold kickReceive
      simp only [hr, hm, hne, hfind, Bool.true_and, Bool.false_eq_true, if_false, if_true]
      by_cases hp : c.pattern (pathBase r.fpath) = true <;>
        by_cases hg : c.bGrep = true <;> simp [hp, hg, notify, goGrep]
    · unfold kickReceive
      simp only [hr, hm, hne, Bool.false_eq_true, if_false, if_true]
      by_cases hp : (c.bFind && c.pattern (pathBase r.fpath)) = true <;>
        simp [hp, notify, goGrep]

/-- Scenario A of the specification: with pattern `a`, the File report
`root/a.txt` is forwarded and the Directory report `root/sub` is not; a whole
run ends with the File report as the only one forwarded. -/
theorem kick_find_filter_witness :
    (kickReceive scenarioAOptions scenarioA (kickStart scenarioA "root".toList)
        (entryReport "root".toList { Name := "a.txt".toList, IsDir := false })).chNotify
      = [{ complete := false, fmode := FMODE_FILE, fpath := "root/a.txt".toList, line := [] }]
    ∧ (kickReceive scenarioAOptions scenarioA (kickStart scenarioA "root".toList)
        (entryReport "root".toList { Name := "sub".toList, IsDir := true })).chNotify = []
    ∧ (run scenarioAOptions scenarioA scenarioASchedule
        (kickStart scenarioA "root".toList)).map (fun s => (s.closed, s.chNotify))
      = some (true,
          [{ complete := false, fmode := FMODE_FILE, fpath := "root/a.txt".toList, line := [] }]) :=
  ⟨(kick_find_filter scenarioAOptions scenarioA (kickStart scenarioA "root".toList)
      (entryReport "root".toList { Name := "a.txt".toList, IsDir := false })
      rfl rfl (Or.inr rfl)).1.trans (by decide),
   (kick_find_filter scenarioAOptions scenarioA (kickStart scenarioA "root".toList)
      (entryReport "root".toList { Name := "sub".toList, IsDir := true })
      rfl rfl (Or.inl rfl)).1.trans (by decide),
   by decide⟩

/-- C10: for every report `showReport` receives, wherever it stands in the
stream, it prints `[Dir ] <path>` for a Directory report, `[File] <path>`
for a File report and `[Grep] <path>:<line>` for a Line report; a report
sent by `grep` on the file `p`, made at count `n` from the text `t`, is
forwarded by `kick` as it is and printed as `[Grep] <p>:<n>: <t>`. -/
theorem showReport_format :
    showReport [] = []
    ∧ (∀ (pre post : List report) (r : report), r.fmode = FMODE_DIR →
        showReport (pre ++ r :: post)
          = showReport pre ++ Sum.inl ("[Dir ] ".toList ++ r.fpath ++ "\n".toList)
              :: showReport post)
    ∧ (∀ (pre post : List report) (r : report), r.fmode = FMODE_FILE →
        showReport (pre ++ r :: post)
          = showReport pre ++ Sum.inl ("[File] ".toList ++ r.fpath ++ "\n".toList)
              :: showReport post)
    ∧ (∀ (pre post : List report) (r : report), r.fmode = FMODE_LINE →
        showReport (pre ++ r :: post)
          = showReport pre
              ++ Sum.inl ("[Grep] ".toList ++ r.fpath ++ ":".toList ++ r.line ++ "\n".toList)
              :: showReport post)
    ∧ (∀ (c : gorep) (w : World) (p content : GoString), w.Open p = Except.ok content →
        ∀ r ∈ sends (grep c w p), r.complete = false →
          ∃ n t, (n, t) ∈ scanFrom defaultBufSize 0 content ∧ c.pattern t = true
            ∧ r = lineReport p (n, t)
            ∧ (∀ s : State, (kickReceive c w s r).chNotify = s.chNotify ++ [r])
            ∧ (∀ pre post : List report, showReport (pre ++ r :: post)
                = showReport pre
                  ++ Sum.inl ("[Grep] ".toList ++ p ++ ":".toList ++ fmtInt n ++ ": ".toList
                      ++ t ++ "\n".toList)
                  :: showReport post)) := by
  have h01 : FMODE_FILE ≠ FMODE_DIR := by decide
  have h02 : FMODE_LINE ≠ FMODE_DIR := by decide
  have h12 : FMODE_LINE ≠ FMODE_FILE := by decide
  refine ⟨rfl, ?_, ?_, ?_, ?_⟩
  · intro pre post r h
    simp [showReport, showOne, h]
  · intro pre post r h
    simp [showReport, showOne, h, h01]
  · intro pre post r h
    simp [showReport, showOne, h, h02, h12]
  · intro c w p content hopen r hr hc
    rw [sends_grep_ok c w p content hopen] at hr
    simp only [List.mem_append, List.mem_map, List.mem_filter, List.mem_singleton] at hr
    rcases hr with ⟨x, ⟨hx, hm⟩, rfl⟩ | rfl
    · refine ⟨x.1, x.2, hx, hm, rfl, fun s => ?_, fun pre post => ?_⟩
      · simp [kickReceive, lineReport, h02, h12, notify]
      · simp [showReport, showOne, lineReport, h02, h12]
    · exact absurd hc (by decide)

/-- Scenario B of the specification, as printed, and a stream in which a
Directory report comes third. -/
theorem showReport_format_witness :
    showReport ((sends (grep scenarioBOptions scenarioB "f.txt".toList)).filter
        (fun r => !r.complete))
      = [Sum.inl "[Grep] f.txt:1: hello\n".toList,
         Sum.inl "[Grep] f.txt:3: hello world\n".toList]
    ∧ showReport
        [entryReport "root".toList { Name := "a.txt".toList, IsDir := false },
         lineReport "root/a.txt".toList (1, "alpha".toList),
         entryReport "root".toList { Name := "sub".toList, IsDir := true }]
      = [Sum.inl "[File] root/a.txt\n".toList,
         Sum.inl "[Grep] root/a.txt:1: alpha\n".toList,
         Sum.inl "[Dir ] root/sub\n".toList] :=
  ⟨by decide,
   (showReport_format.2.1
      [entryReport "root".toList { Name := "a.txt".toList, IsDir := false },
       lineReport "root/a.txt".toList (1, "alpha".toList)] []
      (entryReport "root".toList { Name := "sub".toList, IsDir := true }) rfl).trans
     (by decide)⟩

/-! ## The moves of the program -/

theorem getElem?_split {α : Type} (L : List α) (i : Nat) (x : α) (h : L[i]? = some x) :
    ∃ pre post, L = pre ++ x :: post ∧ ∀ y, L.set i y = pre ++ y :: post := by
  induction L generalizing i with
  | nil => simp at h
  | cons a L ih =>
    cases i with
    | zero =>
      simp only [List.getElem?_cons_zero, Option.some.injEq] at h
      subst h
      exact ⟨[], L, rfl, fun y => rfl⟩
    | succ i =>
      simp only [List.getElem?_cons_succ] at h
      obtain ⟨pre, post, hL, hset⟩ := ih i h
      refine ⟨a :: pre, post, by rw [hL]; rfl, fun y => ?_⟩
      simp [List.set, hset]

theorem stepKick_move (c : gorep) (w : World) (s s' : State) (hx : s.exited = none)
    (h : stepKick c w s = some s') : Move c w s s' := by
  unfold stepKick at h
  split_ifs at h with hc hn
  · have hc' : s.closed = false := by simpa using hc
    cases hr : s.chRelay with
    | nil => simp [hr] at h
    | cons r rest =>
      simp only [hr, Option.some.injEq] at h
      subst h
      exact Move.receive s r rest hx hc' hn hr
  · have hc' : s.closed = false := by simpa using hc
    simp only [Option.some.injEq] at h
    subst h
    exact Move.close s hx hc' hn

theorem stepGo_move (c : gorep) (w : World) (s s' : State) (i : Nat) (hx : s.exited = none)
    (h : stepGo s i = some s') : Move c w s s' := by
  unfold stepGo at h
  cases hg : s.routines[i]? with
  | none => simp [hg] at h
  | some body =>
    obtain ⟨pre, post, hL, hset⟩ := getElem?_split s.routines i body hg
    rw [hg] at h
    cases body with
    | nil => simp at h
    | cons a rest =>
      cases a with
      | send r =>
        dsimp only at h
        split_ifs at h with hc hcap
        · simp only [Option.some.injEq] at h
          subst h
          exact Move.sendClosed s pre post r rest hx hc hL
        · have hc' : s.closed = false := by simpa using hc
          simp only [Option.some.injEq] at h
          subst h
          rw [hset]
          exact Move.send s pre post r rest hx hc' hL hcap
      | stderr msg =>
        simp only [Option.some.injEq] at h
        subst h
        rw [hset]
        exact Move.stderr s pre post msg rest hx hL
      | exit code =>
        simp only [Option.some.injEq] at h
        subst h
        exact Move.exit s pre post code rest hx hL

theorem step_move (c : gorep) (w : World) (l : Label) (s s' : State)
    (h : step c w l s = some s') : Move c w s s' := by
  unfold step at h
  split_ifs at h with hx
  have hx' : s.exited = none := by
    cases hs : s.exited with
    | none => rfl
    | some v => simp [hs] at hx
  cases l with
  | kick => exact stepKick_move c w s s' hx' h
  | go i => exact stepGo_move c w s s' i hx' h

/-- A property that holds when `kick` enters its loop and is kept by every
move holds in every reachable state. -/
theorem reachable_induction (c : gorep) (w : World) (root : GoString) (P : State → Prop)
    (h0 : P (kickStart w root))
    (hstep : ∀ s s', P s → Move c w s s' → P s') :
    ∀ s, Reachable c w root s → P s := by
  have key : ∀ (ls : List Label) (s0 s : State), P s0 → run c w ls s0 = some s → P s := by
    intro ls
    induction ls with
    | nil =>
      intro s0 s h0 h
      simp only [run, Option.some.injEq] at h
      exact h ▸ h0
    | cons l ls ih =>
      intro s0 s h0 h
      simp only [run] at h
      cases hs : step c w l s0 with
      | none => simp [hs] at h
      | some s1 =>
        simp only [hs] at h
        exact ih s1 s (hstep s0 s1 h0 (step_move c w l s0 s1 hs)) h
  intro s ⟨ls, h⟩
  exact key ls _ s h0 h

theorem kickReceive_fields (c : gorep) (w : World) (s : State) (r : report) :
    (kickReceive c w s r).nRoutines
        = s.nRoutines + (spawnOf c w r).length - (if r.complete then 1 else 0)
    ∧ (kickReceive c w s r).chRelay = s.chRelay
    ∧ (kickReceive c w s r).routines = s.routines ++ spawnOf c w r
    ∧ (kickReceive c w s r).chNotify = s.chNotify ++ notifyOf c r
    ∧ (kickReceive c w s r).closed = s.closed
    ∧ (kickReceive c w s r).exited = s.exited
    ∧ (kickReceive c w s r).spawned = s.spawned + (spawnOf c w r).length
    ∧ (kickReceive c w s r).markers = s.markers + (if r.complete then 1 else 0)
    ∧ (kickReceive c w s r).relayed = s.relayed
    ∧ (kickReceive c w s r).dives
        = s.dives ++ (if r.complete = false ∧ r.fmode = FMODE_DIR ∧ c.bRecursive = true
            then [r.fpath] else []) := by
  have h01 : FMODE_FILE ≠ FMODE_DIR := by decide
  have h02 : FMODE_LINE ≠ FMODE_DIR := by decide
  have h12 : FMODE_LINE ≠ FMODE_FILE := by decide
  unfold kickReceive spawnOf notifyOf
  by_cases hc : r.complete = true
  · simp [hc]
  · have hc' : r.complete = false := by simpa using hc
    simp only [hc', Bool.false_eq_true, if_false]
    by_cases hd : r.fmode = FMODE_DIR
    · simp only [hd, if_true, true_or]
      by_cases hm : (c.bFind && c.pattern (pathBase r.fpath)) = true <;>
        by_cases hrec : c.bRecursive = true <;> simp [hm, hrec, notify, goDive]
    · simp only [hd, if_false, false_or]
      by_cases hf : r.fmode = FMODE_FILE
      · simp only [hf, if_true]
        by_cases hm : (c.bFind && c.pattern (pathBase r.fpath)) = true <;>
          by_cases hg : c.bGrep = true <;> simp [hm, hg, notify, goGrep]
      · simp only [hf, if_false]
        by_cases hl : r.fmode = FMODE_LINE
        · simp [hl, notify]
        · simp [hl]

/-! ## The invariant of the counter -/

theorem unfinished_append (l₁ l₂ : List (List Action)) :
    unfinished (l₁ ++ l₂) = unfinished l₁ + unfinished l₂ := by
  simp [unfinished, List.countP_append]

theorem unfinished_cons (l : List Action) (ls : List (List Action)) :
    unfinished (l :: ls) = (if l = [] then 0 else 1) + unfinished ls := by
  cases l <;> simp [unfinished, List.countP_cons, Nat.add_comm]

theorem markersIn_append (l₁ l₂ : List report) :
    markersIn (l₁ ++ l₂) = markersIn l₁ + markersIn l₂ := by
  simp [markersIn, List.countP_append]

theorem markersIn_cons (r : report) (l : List report) :
    markersIn (r :: l) = (if r.complete then 1 else 0) + markersIn l := by
  cases h : r.complete <;> simp [markersIn, List.countP_cons, h, Nat.add_comm]

theorem endsWithMarker_ne_nil (l : List Action) (h : endsWithMarker l = true) : l ≠ [] := by
  rintro rfl; simp [endsWithMarker] at h

theorem endsWithMarker_sends {α : Type} (f : α → report) (hf : ∀ x, (f x).complete = false)
    (m : report) (hm : m.complete = true) (l : List α) :
    endsWithMarker (l.map (fun x => Action.send (f x)) ++ [Action.send m]) = true := by
  induction l with
  | nil => simp [endsWithMarker, hm]
  | cons a l ih =>
    simp only [List.map_cons, List.cons_append, endsWithMarker, hf]
    simpa using ih

theorem endsWithMarker_dive (w : World) (dir : GoString) : endsWithMarker (dive w dir) = true := by
  cases h : w.ReadDir dir with
  | error err => rw [dive_error w dir err h]; rfl
  | ok list =>
    rw [dive_ok w dir list h]
    exact endsWithMarker_sends (entryReport dir) (fun _ => rfl) diveDone rfl list

theorem endsWithMarker_grep (c : gorep) (w : World) (fpath : GoString) :
    endsWithMarker (grep c w fpath) = true := by
  cases h : w.Open fpath with
  | error err => rw [grep_error c w fpath err h]; rfl
  | ok content =>
    rw [grep_ok c w fpath content h]
    exact endsWithMarker_sends (lineReport fpath) (fun _ => rfl) grepDone rfl _

theorem spawnOf_cases (c : gorep) (w : World) (r : report) :
    spawnOf c w r = []
    ∨ (spawnOf c w r = [dive w r.fpath] ∧ r.complete = false ∧ r.fmode = FMODE_DIR
        ∧ c.bRecursive = true)
    ∨ (spawnOf c w r = [grep c w r.fpath] ∧ r.complete = false ∧ r.fmode = FMODE_FILE
        ∧ c.bGrep = true) := by
  unfold spawnOf
  by_cases hc : r.complete = true
  · simp [hc]
  · have hc' : r.complete = false := by simpa using hc
    by_cases hd : r.fmode = FMODE_DIR
    · by_cases hrec : c.bRecursive = true <;> simp [hc', hd, hrec]
    · have h01 : FMODE_FILE ≠ FMODE_DIR := by decide
      by_cases hf : r.fmode = FMODE_FILE
      · by_cases hg : c.bGrep = true <;> simp [hc', hf, hg, h01]
      · simp [hc', hd, hf]

theorem spawnOf_wf (c : gorep) (w : World) (r : report) :
    ∀ l ∈ spawnOf c w r, endsWithMarker l = true := by
  intro l hl
  rcases spawnOf_cases c w r with h | ⟨h, -⟩ | ⟨h, -⟩ <;> rw [h] at hl
  · simp at hl
  · simp only [List.mem_singleton] at hl; subst hl; exact endsWithMarker_dive w _
  · simp only [List.mem_singleton] at hl; subst hl; exact endsWithMarker_grep c w _

theorem unfinished_spawnOf (c : gorep) (w : World) (r : report) :
    unfinished (spawnOf c w r) = (spawnOf c w r).length := by
  have hwf := spawnOf_wf c w r
  rcases spawnOf_cases c w r with h | ⟨h, -⟩ | ⟨h, -⟩ <;> rw [h] at hwf ⊢
  · rfl
  · have := endsWithMarker_ne_nil _ (hwf _ (List.mem_singleton_self _))
    simp [unfinished_cons, this, unfinished]
  · have := endsWithMarker_ne_nil _ (hwf _ (List.mem_singleton_self _))
    simp [unfinished_cons, this, unfinished]

theorem spawnOf_complete (c : gorep) (w : World) (r : report) (h : r.complete = true) :
    spawnOf c w r = [] := by
  simp [spawnOf, h]

theorem counterInv_start (w : World) (root : GoString) : CounterInv (kickStart w root) := by
  have hne := endsWithMarker_ne_nil _ (endsWithMarker_dive w root)
  refine ⟨?_, by simp [kickStart], rfl, ?_, Or.inl rfl, fun h => by simp [kickStart] at h⟩
  · simp [kickStart, unfinished_cons, hne, unfinished, markersIn]
  · intro l hl
    simp only [kickStart, List.mem_singleton] at hl
    subst hl
    exact Or.inr (endsWithMarker_dive w root)

theorem unfinished_split (pre post : List (List Action)) (l : List Action) :
    unfinished (pre ++ l :: post)
      = unfinished pre + (if l = [] then 0 else 1) + unfinished post := by
  rw [unfinished_append, unfinished_cons]; omega

theorem getLast?_append_singleton (l : List report) (r : report) :
    (l ++ [r]).getLast? = some r := by
  simp

theorem counterInv_move (c : gorep) (w : World) (s s' : State)
    (inv : CounterInv s) (hm : Move c w s s') : CounterInv s' := by
  obtain ⟨hcount, hhist, hstarted, hwf, htail, hclosed⟩ := inv
  cases hm with
  | close hx hc hn =>
    refine ⟨hcount, hhist, hstarted, hwf, htail, fun _ => ⟨?_, hx⟩⟩
    show s.nRoutines = 0
    omega
  | receive r rest hx hc hn hr =>
    obtain ⟨f1, f2, f3, f4, f5, f6, f7, f8, f9, f10⟩ :=
      kickReceive_fields c w { s with chRelay := rest } r
    dsimp only at f1 f2 f3 f4 f5 f6 f7 f8 f9 f10
    have hsp := unfinished_spawnOf c w r
    have hmk : markersIn s.chRelay = (if r.complete then 1 else 0) + markersIn rest := by
      rw [hr, markersIn_cons]
    refine ⟨?_, ?_, ?_, ?_, ?_, ?_⟩
    · rw [f1, f2, f3, unfinished_append, hsp, hcount, hmk]
      split_ifs <;> push_cast <;> omega
    · rw [f1, f7, f8, hhist]
      split_ifs <;> push_cast <;> omega
    · rw [f3, f7, List.length_append]
      omega
    · rw [f3]
      intro l hl
      rcases List.mem_append.mp hl with h | h
      · exact hwf l h
      · exact Or.inr (spawnOf_wf c w r l h)
    · rw [f2, f3, unfinished_append]
      by_cases hrest : rest = []
      · exact Or.inl hrest
      · right
        rcases htail with h | ⟨m, h1, h2⟩ | h
        · rw [hr] at h; simp at h
        · left
          cases rest with
          | nil => exact absurd rfl hrest
          | cons r2 rest2 =>
            rw [hr, List.getLast?_cons_cons] at h1
            exact ⟨m, h1, h2⟩
        · right
          omega
    · rw [f5]
      intro h
      exact absurd (show s.closed = true from h) (by simp [hc])
  | send pre post r rest hx hc hr hcap =>
    have hw := hwf (Action.send r :: rest) (by rw [hr]; simp)
    have hw' : endsWithMarker (Action.send r :: rest) = true := by
      rcases hw with h | h
      · simp at h
      · exact h
    simp only [endsWithMarker] at hw'
    have hunf := unfinished_split pre post (Action.send r :: rest)
    have hunf' := unfinished_split pre post rest
    rw [← hr] at hunf
    simp only [reduceCtorEq, if_false] at hunf
    by_cases hrest : rest = []
    · subst hrest
      simp only [List.isEmpty_nil, if_true] at hw'
      simp only [if_true] at hunf'
      refine ⟨?_, hhist, ?_, ?_, ?_, ?_⟩
      · show s.nRoutines = ((unfinished (pre ++ [] :: post) + markersIn (s.chRelay ++ [r]) : Nat) : Int)
        rw [hcount, markersIn_append, hunf']
        simp only [markersIn, List.countP_cons, List.countP_nil, hw', if_true]
        push_cast; omega
      · show (pre ++ [] :: post).length = s.spawned
        rw [← hstarted, hr]; simp
      · intro l hl
        show l = [] ∨ _
        simp only [List.mem_append, List.mem_cons] at hl
        rcases hl with h | h | h
        · exact hwf l (by rw [hr]; simp [h])
        · exact Or.inl h
        · exact hwf l (by rw [hr]; simp [h])
      · right; left
        exact ⟨r, getLast?_append_singleton _ _, hw'⟩
      · intro h
        exact absurd (show s.closed = true from h) (by simp [hc])
    · have hemp : rest.isEmpty = false := by
        cases rest with
        | nil => exact absurd rfl hrest
        | cons a t => rfl
      simp only [hemp, Bool.false_eq_true, if_false, Bool.and_eq_true, Bool.not_eq_true'] at hw'
      simp only [hrest, if_false] at hunf'
      refine ⟨?_, hhist, ?_, ?_, ?_, ?_⟩
      · show s.nRoutines = ((unfinished (pre ++ rest :: post) + markersIn (s.chRelay ++ [r]) : Nat) : Int)
        rw [hcount, markersIn_append, hunf']
        simp only [markersIn, List.countP_cons, List.countP_nil, hw'.1]
        push_cast; simp; omega
      · show (pre ++ rest :: post).length = s.spawned
        rw [← hstarted, hr]; simp
      · intro l hl
        show l = [] ∨ _
        simp only [List.mem_append, List.mem_cons] at hl
        rcases hl with h | h | h
        · exact hwf l (by rw [hr]; simp [h])
        · exact Or.inr (h ▸ hw'.2)
        · exact hwf l (by rw [hr]; simp [h])
      · right; right
        show 0 < unfinished (pre ++ rest :: post)
        omega
      · intro h
        exact absurd (show s.closed = true from h) (by simp [hc])
  | sendClosed pre post r rest hx hc hr =>
    exfalso
    have hunf := unfinished_split pre post (Action.send r :: rest)
    rw [← hr] at hunf
    simp only [reduceCtorEq, if_false] at hunf
    have := (hclosed hc).1
    omega
  | stderr pre post msg rest hx hr =>
    have hw := hwf (Action.stderr msg :: rest) (by rw [hr]; simp)
    have hw' : endsWithMarker rest = true := by
      rcases hw with h | h
      · simp at h
      · simpa [endsWithMarker] using h
    have hrest := endsWithMarker_ne_nil _ hw'
    have hunf := unfinished_split pre post (Action.stderr msg :: rest)
    have hunf' := unfinished_split pre post rest
    rw [← hr] at hunf
    simp only [reduceCtorEq, if_false] at hunf
    simp only [hrest, if_false] at hunf'
    refine ⟨?_, hhist, ?_, ?_, ?_, hclosed⟩
    · show s.nRoutines = ((unfinished (pre ++ rest :: post) + markersIn s.chRelay : Nat) : Int)
      rw [hcount, hunf', hunf]
    · show (pre ++ rest :: post).length = s.spawned
      rw [← hstarted, hr]; simp
    · intro l hl
      show l = [] ∨ _
      simp only [List.mem_append, List.mem_cons] at hl
      rcases hl with h | h | h
      · exact hwf l (by rw [hr]; simp [h])
      · exact Or.inr (h ▸ hw')
      · exact hwf l (by rw [hr]; simp [h])
    · rcases htail with h | h | h
      · exact Or.inl h
      · exact Or.inr (Or.inl h)
      · right; right
        show 0 < unfinished (pre ++ rest :: post)
        omega
  | exit pre post code rest hx hr =>
    refine ⟨hcount, hhist, hstarted, hwf, htail, ?_⟩
    intro hc
    exfalso
    have hunf := unfinished_split pre post (Action.exit code :: rest)
    rw [← hr] at hunf
    simp only [reduceCtorEq, if_false] at hunf
    have := (hclosed hc).1
    omega

theorem counterInv_reachable (c : gorep) (w : World) (root : GoString) (s : State)
    (h : Reachable c w root s) : CounterInv s :=
  reachable_induction c w root CounterInv (counterInv_start w root)
    (fun s s' inv hm => counterInv_move c w s s' inv hm) s h

theorem unfinished_eq_zero (routines : List (List Action)) (h : unfinished routines = 0) :
    ∀ l ∈ routines, l = [] := by
  intro l hl
  unfold unfinished at h
  rw [List.countP_eq_zero] at h
  have := h l hl
  cases l with
  | nil => rfl
  | cons a t => simp at this

theorem markersIn_pos_of_getLast (l : List report) (m : report)
    (h : l.getLast? = some m) (hm : m.complete = true) : 0 < markersIn l := by
  unfold markersIn
  rw [List.countP_pos_iff]
  exact ⟨m, List.mem_of_getLast?_eq_some h, hm⟩

theorem counterInv_zero (s : State) (inv : CounterInv s) (h : s.nRoutines = 0) :
    (∀ l ∈ s.routines, l = []) ∧ s.chRelay = [] := by
  have hcount := inv.count
  rw [h] at hcount
  have h0 : unfinished s.routines = 0 ∧ markersIn s.chRelay = 0 := by
    constructor <;> omega
  refine ⟨unfinished_eq_zero _ h0.1, ?_⟩
  rcases inv.tail with ht | ⟨m, h1, h2⟩ | ht
  · exact ht
  · have := markersIn_pos_of_getLast _ m h1 h2
    omega
  · omega

theorem scenarioAMid_reachable :
    Reachable scenarioAOptions scenarioA "root".toList scenarioAMid :=
  ⟨scenarioASchedule.take 4, by decide⟩

theorem scenarioAEnd_reachable :
    Reachable scenarioAOptions scenarioA "root".toList scenarioAEnd :=
  ⟨scenarioASchedule, by decide⟩

/-- C7: in every reachable state the counter `nRoutines` is the number of
goroutines started whose completion marker `kick` has not received yet (those
still running plus the markers waiting in `chRelay`); when the counter is
zero every goroutine has finished and `chRelay` is empty, so that closing the
channels drops nothing and no goroutine sends on a closed channel. -/
theorem kick_counter_tracks_workers (c : gorep) (w : World) (root : GoString) (s : State)
    (h : Reachable c w root s) :
    s.nRoutines = ((unfinished s.routines + markersIn s.chRelay : Nat) : Int)
    ∧ s.routines.length = s.spawned
    ∧ (s.nRoutines = 0 → (∀ l ∈ s.routines, l = []) ∧ s.chRelay = [])
    ∧ (s.closed = true →
        s.nRoutines = 0 ∧ (∀ l ∈ s.routines, l = []) ∧ s.chRelay = [] ∧ s.exited = none) := by
  have inv := counterInv_reachable c w root s h
  refine ⟨inv.count, inv.started, counterInv_zero s inv, fun hc => ?_⟩
  obtain ⟨h0, hx⟩ := inv.closed hc
  obtain ⟨h1, h2⟩ := counterInv_zero s inv h0
  exact ⟨h0, h1, h2, hx⟩

/-- Scenario A: with one report received, the counter is one for one marker
waiting; at the end it is zero with nothing left. -/
theorem kick_counter_tracks_workers_witness :
    (scenarioAMid.nRoutines = 1 ∧ unfinished scenarioAMid.routines = 0
      ∧ markersIn scenarioAMid.chRelay = 1)
    ∧ (scenarioAEnd.closed = true →
        scenarioAEnd.nRoutines = 0 ∧ (∀ l ∈ scenarioAEnd.routines, l = [])
          ∧ scenarioAEnd.chRelay = [] ∧ scenarioAEnd.exited = none) :=
  ⟨by decide,
   (kick_counter_tracks_workers scenarioAOptions scenarioA "root".toList scenarioAEnd
      scenarioAEnd_reachable).2.2.2⟩

/-- C4: the counter is one when `kick` enters its loop; in every reachable
state it is the number of goroutines started minus the number of completion
markers received, and it is not negative; `kick` leaves its loop exactly in
the states where as many markers were received as goroutines were started,
that is where the counter is zero. -/
theorem kick_counter_invariant (c : gorep) (w : World) (root : GoString) (s : State)
    (h : Reachable c w root s) :
    (kickStart w root).nRoutines = 1
    ∧ s.nRoutines = (s.spawned : Int) - (s.markers : Int)
    ∧ 0 ≤ s.nRoutines
    ∧ (s.nRoutines = 0 ↔ s.markers = s.spawned)
    ∧ (s.closed = true → s.markers = s.spawned)
    ∧ (s.closed = false → s.exited = none →
        ((∃ s', step c w Label.kick s = some s' ∧ s'.closed = true)
          ↔ s.markers = s.spawned)) := by
  have inv := counterInv_reachable c w root s h
  have hcount := inv.count
  have hhist := inv.hist
  have hiff : s.nRoutines = 0 ↔ s.markers = s.spawned := by
    constructor <;> intro h0 <;> omega
  refine ⟨rfl, hhist, by omega, hiff, fun hc => hiff.mp (inv.closed hc).1, fun hc hx => ?_⟩
  have hstep : step c w Label.kick s = stepKick c w s := by
    simp [step, hx]
  rw [hstep, ← hiff]
  unfold stepKick
  simp only [hc, Bool.false_eq_true, if_false]
  by_cases hn : 0 < s.nRoutines
  · simp only [hn, if_true]
    constructor
    · rintro ⟨s', hs, hcl⟩
      cases hr : s.chRelay with
      | nil => simp [hr] at hs
      | cons r rest =>
        simp only [hr, Option.some.injEq] at hs
        subst hs
        rw [(kickReceive_fields c w _ r).2.2.2.2.1] at hcl
        simp at hcl
    · intro h0; omega
  · simp only [hn, if_false]
    constructor
    · intro _; omega
    · intro _; exact ⟨_, rfl, rfl⟩

/-- Scenario A: at the end two goroutines were started and two markers
received, and in the state before `kick` was about to leave its loop. -/
theorem kick_counter_invariant_witness :
    scenarioAEnd.nRoutines = (scenarioAEnd.spawned : Int) - (scenarioAEnd.markers : Int)
    ∧ scenarioAEnd.spawned = 2 ∧ scenarioAEnd.markers = 2
    ∧ scenarioAMid.nRoutines = (scenarioAMid.spawned : Int) - (scenarioAMid.markers : Int)
    ∧ scenarioAMid.spawned = 1 ∧ scenarioAMid.markers = 0 :=
  ⟨(kick_counter_invariant scenarioAOptions scenarioA "root".toList scenarioAEnd
      scenarioAEnd_reachable).2.1, by decide, by decide,
   (kick_counter_invariant scenarioAOptions scenarioA "root".toList scenarioAMid
      scenarioAMid_reachable).2.1, by decide, by decide⟩

/-! ## Runs without `-r` -/

theorem sends_grep_not_entry (c : gorep) (w : World) (fpath : GoString) :
    ∀ r ∈ sends (grep c w fpath), isEntry r = false := by
  intro r hr
  cases h : w.Open fpath with
  | error err =>
    rw [grep_error c w fpath err h] at hr
    simp only [sends, List.mem_singleton] at hr
    subst hr; rfl
  | ok content =>
    rw [sends_grep_ok c w fpath content h] at hr
    simp only [List.mem_append, List.mem_map, List.mem_singleton] at hr
    rcases hr with ⟨x, -, rfl⟩ | rfl
    · rfl
    · rfl

theorem sends_dive_entry (w : World) (dir : GoString) :
    ∀ r ∈ sends (dive w dir), isEntry r = true → r ∈ immediateEntries w dir := by
  intro r hr he
  unfold immediateEntries
  cases h : w.ReadDir dir with
  | error err =>
    rw [dive_error w dir err h] at hr
    simp [sends] at hr
  | ok list =>
    rw [dive_ok w dir list h, sends_append, sends_map_send] at hr
    simp only [sends, List.mem_append, List.mem_singleton] at hr
    rcases hr with hr | rfl
    · exact hr
    · exact absurd he (by decide)

theorem notifyOf_subset (c : gorep) (r x : report) (h : x ∈ notifyOf c r) :
    x = r ∧ r.complete = false := by
  unfold notifyOf at h
  split_ifs at h with h1 h2 h3 h4 <;> simp at h <;> exact ⟨h, by simpa using h1⟩

theorem flatInv_start (w : World) (root : GoString) : FlatInv w root (kickStart w root) := by
  refine ⟨rfl, ?_, ?_, ?_, ?_⟩
  · intro l hl
    simp only [kickStart, List.mem_singleton] at hl
    subst hl
    exact sends_dive_entry w root
  · intro r hr; simp [kickStart] at hr
  · intro r hr; simp [kickStart] at hr
  · intro r hr; simp [kickStart] at hr

theorem flatInv_move (c : gorep) (w : World) (root : GoString) (hrec : c.bRecursive = false)
    (s s' : State) (inv : FlatInv w root s) (hm : Move c w s s') : FlatInv w root s' := by
  obtain ⟨hdives, hpend, hrelay, hnot, hrelayed⟩ := inv
  cases hm with
  | close hx hc hn => exact ⟨hdives, hpend, hrelay, hnot, hrelayed⟩
  | receive r rest hx hc hn hr =>
    obtain ⟨f1, f2, f3, f4, f5, f6, f7, f8, f9, f10⟩ :=
      kickReceive_fields c w { s with chRelay := rest } r
    dsimp only at f1 f2 f3 f4 f5 f6 f7 f8 f9 f10
    have hrmem : r ∈ s.relayed := hrelay r (by rw [hr]; simp)
    refine ⟨?_, ?_, ?_, ?_, ?_⟩
    · rw [f10, hdives]; simp [hrec]
    · rw [f3]
      intro l hl
      rcases List.mem_append.mp hl with h | h
      · exact hpend l h
      · rcases spawnOf_cases c w r with h0 | ⟨-, -, -, h1⟩ | ⟨h1, -⟩
        · rw [h0] at h; simp at h
        · rw [hrec] at h1; simp at h1
        · rw [h1] at h
          simp only [List.mem_singleton] at h
          subst h
          intro x hx' he
          rw [sends_grep_not_entry c w _ x hx'] at he
          simp at he
    · rw [f2, f9]
      intro x hx'
      exact hrelay x (by rw [hr]; simp [hx'])
    · rw [f4, f9]
      intro x hx'
      rcases List.mem_append.mp hx' with h | h
      · exact hnot x h
      · obtain ⟨rfl, hcmp⟩ := notifyOf_subset c r x h
        exact ⟨hrmem, hcmp⟩
    · rw [f9]; exact hrelayed
  | send pre post r rest hx hc hr hcap =>
    have hsub : ∀ x ∈ sends (Action.send r :: rest), isEntry x = true →
        x ∈ immediateEntries w root := hpend _ (by rw [hr]; simp)
    refine ⟨hdives, ?_, ?_, ?_, ?_⟩
    · intro l hl
      show ∀ x ∈ sends l, _
      simp only [List.mem_append, List.mem_cons] at hl
      rcases hl with h | h | h
      · exact hpend l (by rw [hr]; simp [h])
      · subst h
        intro x hx' he
        exact hsub x (by simp [sends, hx']) he
      · exact hpend l (by rw [hr]; simp [h])
    · intro x hx'
      show x ∈ s.relayed ++ [r]
      rcases List.mem_append.mp hx' with h | h
      · exact List.mem_append_left _ (hrelay x h)
      · exact List.mem_append_right _ h
    · intro x hx'
      exact ⟨List.mem_append_left _ (hnot x hx').1, (hnot x hx').2⟩
    · intro x hx' he
      rcases List.mem_append.mp hx' with h | h
      · exact hrelayed x h he
      · simp only [List.mem_singleton] at h
        subst h
        exact hsub x (by simp [sends]) he
  | sendClosed pre post r rest hx hc hr => exact ⟨hdives, hpend, hrelay, hnot, hrelayed⟩
  | stderr pre post msg rest hx hr =>
    refine ⟨hdives, ?_, hrelay, hnot, hrelayed⟩
    intro l hl
    show ∀ x ∈ sends l, _
    simp only [List.mem_append, List.mem_cons] at hl
    rcases hl with h | h | h
    · exact hpend l (by rw [hr]; simp [h])
    · subst h
      exact hpend (Action.stderr msg :: l) (by rw [hr]; simp)
    · exact hpend l (by rw [hr]; simp [h])
  | exit pre post code rest hx hr => exact ⟨hdives, hpend, hrelay, hnot, hrelayed⟩

/-- C8: without `-r`, `dive` is started once, on the root; every report of a
directory entry that is sent on `chRelay`, and every Directory or File report
forwarded to `chNotify`, is an immediate entry of the root, and no other
directory is listed. -/
theorem kick_not_recursive (c : gorep) (w : World) (root : GoString)
    (hrec : c.bRecursive = false) (s : State) (h : Reachable c w root s) :
    s.dives = [root]
    ∧ (∀ r ∈ s.relayed, isEntry r = true → r ∈ immediateEntries w root)
    ∧ (∀ r ∈ s.chNotify, r.fmode = FMODE_DIR ∨ r.fmode = FMODE_FILE →
        r ∈ immediateEntries w root) := by
  have inv : FlatInv w root s :=
    reachable_induction c w root (FlatInv w root) (flatInv_start w root)
      (fun s s' inv hm => flatInv_move c w root hrec s s' inv hm) s h
  refine ⟨inv.dives, inv.relayed, fun r hr hmode => ?_⟩
  obtain ⟨h1, h2⟩ := inv.notified r hr
  refine inv.relayed r h1 ?_
  rcases hmode with hm | hm <;> simp [isEntry, h2, hm]

/-- Scenario A without `-r`: only the root is listed and `root/a.txt` is the
one report forwarded; `root/sub/b.txt` is never sent. -/
theorem kick_not_recursive_witness :
    scenarioAFlatEnd.dives = ["root".toList]
    ∧ scenarioAFlatEnd.closed = true
    ∧ scenarioAFlatEnd.chNotify
        = [{ complete := false, fmode := FMODE_FILE, fpath := "root/a.txt".toList, line := [] }]
    ∧ (∀ r ∈ scenarioAFlatEnd.relayed, isEntry r = true →
        r ∈ immediateEntries scenarioA "root".toList) :=
  ⟨(kick_not_recursive scenarioAFlatOptions scenarioA "root".toList rfl scenarioAFlatEnd
      ⟨scenarioAFlatSchedule, by decide⟩).1, by decide, by decide,
   (kick_not_recursive scenarioAFlatOptions scenarioA "root".toList rfl scenarioAFlatEnd
      ⟨scenarioAFlatSchedule, by decide⟩).2.1⟩

/-! ## Recursive descent -/

theorem flatMap_congr_mem {α β : Type} (l : List α) (f g : α → List β)
    (h : ∀ x ∈ l, f x = g x) : l.flatMap f = l.flatMap g := by
  induction l with
  | nil => rfl
  | cons a l ih =>
    simp only [List.flatMap_cons]
    rw [h a (List.mem_cons_self _ _), ih (fun x hx => h x (List.mem_cons_of_mem _ hx))]

theorem listable_inv (w : World) (d : Nat) (p : GoString) (h : listable w (d + 1) p = true) :
    ∃ list, w.ReadDir p = Except.ok list
      ∧ ∀ fi ∈ list, fi.IsDir = true → listable w d (p ++ "/".toList ++ fi.Name) = true := by
  unfold listable at h
  cases hr : w.ReadDir p with
  | error err => simp [hr] at h
  | ok list =>
    refine ⟨list, rfl, fun fi hfi hdir => ?_⟩
    simp only [hr, List.all_eq_true] at h
    have := h fi hfi
    simpa [hdir] using this

/-- A tree that is listable within some depth is listable within a greater
depth, with the same descent. -/
theorem listable_descent_succ (w : World) :
    ∀ (d : Nat) (p : GoString), listable w d p = true →
      listable w (d + 1) p = true ∧ descent w (d + 1) p = descent w d p := by
  intro d
  induction d with
  | zero => intro p h; simp [listable] at h
  | succ d ih =>
    intro p h
    obtain ⟨list, hr, hkids⟩ := listable_inv w d p h
    constructor
    · rw [listable]
      simp only [hr, List.all_eq_true]
      intro fi hfi
      by_cases hdir : fi.IsDir = true
      · simp only [hdir, Bool.not_true, Bool.false_or]
        exact (ih _ (hkids fi hfi hdir)).1
      · simp [hdir]
    · rw [descent, descent]
      simp only [hr]
      apply flatMap_congr_mem
      intro fi hfi
      by_cases hdir : fi.IsDir = true
      · simp only [hdir, if_true]
        rw [(ih _ (hkids fi hfi hdir)).2]
      · simp [hdir]

/-- The descent from a listable directory: its entries, each directory among
them followed by the descent from it, at the same depth. -/
theorem descent_unfold (w : World) (depth : Nat) (p : GoString)
    (h : listable w depth p = true) :
    ∃ list, w.ReadDir p = Except.ok list
      ∧ (∀ fi ∈ list, fi.IsDir = true →
          listable w depth (p ++ "/".toList ++ fi.Name) = true)
      ∧ descent w depth p
          = list.flatMap (fun fi => entryReport p fi ::
              (if fi.IsDir then descent w depth (p ++ "/".toList ++ fi.Name) else [])) := by
  cases depth with
  | zero => simp [listable] at h
  | succ d =>
    obtain ⟨list, hr, hkids⟩ := listable_inv w d p h
    refine ⟨list, hr, fun fi hfi hdir => (listable_descent_succ w d _ (hkids fi hfi hdir)).1, ?_⟩
    rw [descent]
    simp only [hr]
    apply flatMap_congr_mem
    intro fi hfi
    by_cases hdir : fi.IsDir = true
    · simp only [hdir, if_true]
      rw [(listable_descent_succ w d _ (hkids fi hfi hdir)).2]
    · simp [hdir]

/-! ## Accounting for the entries of the tree -/

theorem cE_append (x : report) (l₁ l₂ : List report) :
    cE x (l₁ ++ l₂) = cE x l₁ + cE x l₂ := by
  simp [cE, List.filter_append, List.count_append]

theorem cB_append (c : gorep) (w : World) (depth : Nat) (x : report) (l₁ l₂ : List report) :
    cB c w depth x (l₁ ++ l₂) = cB c w depth x l₁ + cB c w depth x l₂ := by
  simp [cB, List.flatMap_append, List.count_append]

theorem cM_append (c : gorep) (x : report) (l₁ l₂ : List report) :
    cM c x (l₁ ++ l₂) = cM c x l₁ + cM c x l₂ := by
  simp [cM, List.filter_append, List.count_append]

theorem cE_nil (x : report) : cE x [] = 0 := rfl

theorem cB_nil (c : gorep) (w : World) (depth : Nat) (x : report) : cB c w depth x [] = 0 := rfl

theorem cM_nil (c : gorep) (x : report) : cM c x [] = 0 := rfl

theorem cE_cons (x r : report) (l : List report) : cE x (r :: l) = cE x [r] + cE x l :=
  cE_append x [r] l

theorem cB_cons (c : gorep) (w : World) (depth : Nat) (x r : report) (l : List report) :
    cB c w depth x (r :: l) = cB c w depth x [r] + cB c w depth x l :=
  cB_append c w depth x [r] l

theorem cM_cons (c : gorep) (x r : report) (l : List report) :
    cM c x (r :: l) = cM c x [r] + cM c x l :=
  cM_append c x [r] l

theorem cB_single (c : gorep) (w : World) (depth : Nat) (x r : report) :
    cB c w depth x [r] = (below c w depth r).count x := by
  simp [cB]

theorem pendingReports_append (l₁ l₂ : List (List Action)) :
    pendingReports (l₁ ++ l₂) = pendingReports l₁ ++ pendingReports l₂ := by
  simp [pendingReports, List.flatMap_append]

theorem pendingReports_split (pre post : List (List Action)) (l : List Action) :
    pendingReports (pre ++ l :: post)
      = pendingReports pre ++ (sends l ++ pendingReports post) := by
  simp [pendingReports, List.flatMap_append, List.flatMap_cons]

theorem pendingReports_single (l : List Action) : pendingReports [l] = sends l := by
  simp [pendingReports]

theorem below_entryReport (c : gorep) (w : World) (depth : Nat) (p : GoString) (fi : FileInfo)
    (hrec : c.bRecursive = true) :
    below c w depth (entryReport p fi)
      = if fi.IsDir then descent w depth (p ++ "/".toList ++ fi.Name) else [] := by
  have h01 : FMODE_FILE ≠ FMODE_DIR := by decide
  unfold below entryReport
  cases hd : fi.IsDir <;> simp [hrec, h01]

theorem isEntry_entryReport (p : GoString) (fi : FileInfo) : isEntry (entryReport p fi) = true := by
  cases hd : fi.IsDir <;> simp [isEntry, entryReport, hd]

theorem below_of_not_dir (c : gorep) (w : World) (depth : Nat) (r : report)
    (h : r.complete = true ∨ r.fmode ≠ FMODE_DIR ∨ c.bRecursive = false) :
    below c w depth r = [] := by
  unfold below
  rcases h with h | h | h <;> simp [h]

/-- The entries `dive` sends from a listable directory, with what lies below
them, are the descent from the directory. -/
theorem dive_account (c : gorep) (w : World) (depth : Nat) (p : GoString)
    (hrec : c.bRecursive = true) (h : listable w depth p = true) (x : report) :
    cE x (sends (dive w p)) + cB c w depth x (sends (dive w p))
      = (descent w depth p).count x := by
  obtain ⟨list, hr, -, hd⟩ := descent_unfold w depth p h
  rw [hd, dive_ok w p list hr, sends_append, sends_map_send, cE_append, cB_append]
  have hdone : cE x (sends [Action.send diveDone]) = 0
      ∧ cB c w depth x (sends [Action.send diveDone]) = 0 := by
    constructor
    · rfl
    · simp [sends, cB_single, below_of_not_dir c w depth diveDone (Or.inl rfl)]
  rw [hdone.1, hdone.2]
  clear hd hr
  induction list with
  | nil => rfl
  | cons fi list ih =>
    simp only [List.map_cons, List.flatMap_cons, List.count_append]
    rw [cE_cons, cB_cons, cB_single, below_entryReport c w depth p fi hrec]
    have he : cE x [entryReport p fi] = [entryReport p fi].count x := by
      simp [cE, List.filter_cons, isEntry_entryReport]
    rw [he]
    simp only [List.count_cons, List.count_nil] at ih ⊢
    omega

theorem dive_ok_pending (c : gorep) (w : World) (depth : Nat) (p : GoString)
    (h : listable w depth p = true) :
    ∀ r ∈ sends (dive w p), dirOK c w depth r := by
  obtain ⟨list, hr, hk, -⟩ := descent_unfold w depth p h
  intro r hrm
  rw [dive_ok w p list hr, sends_append, sends_map_send] at hrm
  simp only [sends, List.mem_append, List.mem_map, List.mem_singleton] at hrm
  rcases hrm with ⟨fi, hfi, rfl⟩ | rfl
  · intro _ hmode _
    have hdir : fi.IsDir = true := by
      cases hd : fi.IsDir
      · simp [entryReport, hd] at hmode
        exact absurd hmode (by decide)
      · rfl
    exact hk fi hfi hdir
  · intro hc; exact absurd hc (by decide)

theorem exits_append_send {α : Type} (f : α → report) (l : List α) (m : report) :
    exits (l.map (fun x => Action.send (f x)) ++ [Action.send m]) = false := by
  have := exits_map_send f l
  unfold exits at this ⊢
  rw [List.any_append, this]; rfl

theorem dive_noexit (w : World) (depth : Nat) (p : GoString) (h : listable w depth p = true) :
    exits (dive w p) = false := by
  obtain ⟨list, hr, -, -⟩ := descent_unfold w depth p h
  rw [dive_ok w p list hr]
  exact exits_append_send _ _ _

theorem grep_noexit (c : gorep) (w : World) (fpath : GoString) :
    exits (grep c w fpath) = false := by
  cases h : w.Open fpath with
  | error err => rw [grep_error c w fpath err h]; rfl
  | ok content =>
    rw [grep_ok c w fpath content h]
    exact exits_append_send _ _ _


theorem sends_grep_kind (c : gorep) (w : World) (fpath : GoString) :
    ∀ r ∈ sends (grep c w fpath), r.complete = true ∨ r.fmode = FMODE_LINE := by
  intro r hr
  cases h : w.Open fpath with
  | error err =>
    rw [grep_error c w fpath err h] at hr
    simp only [sends, List.mem_singleton] at hr
    subst hr; exact Or.inl rfl
  | ok content =>
    rw [sends_grep_ok c w fpath content h] at hr
    simp only [List.mem_append, List.mem_map, List.mem_singleton] at hr
    rcases hr with ⟨x, -, rfl⟩ | rfl
    · exact Or.inr rfl
    · exact Or.inl rfl

theorem below_of_grep_report (c : gorep) (w : World) (depth : Nat) (r : report)
    (h : r.complete = true ∨ r.fmode = FMODE_LINE) : below c w depth r = [] := by
  have h02 : FMODE_LINE ≠ FMODE_DIR := by decide
  rcases h with h | h
  · exact below_of_not_dir c w depth r (Or.inl h)
  · exact below_of_not_dir c w depth r (Or.inr (Or.inl (h ▸ h02)))

theorem isEntry_of_grep_report (r : report)
    (h : r.complete = true ∨ r.fmode = FMODE_LINE) : isEntry r = false := by
  rcases h with h | h
  · simp [isEntry, h]
  · simp only [isEntry, h]
    cases r.complete <;> decide

theorem cE_eq_zero (x : report) (l : List report) (h : ∀ r ∈ l, isEntry r = false) :
    cE x l = 0 := by
  induction l with
  | nil => rfl
  | cons a l ih =>
    rw [cE_cons, ih (fun r hr => h r (List.mem_cons_of_mem _ hr))]
    simp [cE, List.filter_cons, h a (List.mem_cons_self _ _)]

theorem cB_eq_zero (c : gorep) (w : World) (depth : Nat) (x : report) (l : List report)
    (h : ∀ r ∈ l, below c w depth r = []) : cB c w depth x l = 0 := by
  induction l with
  | nil => rfl
  | cons a l ih =>
    rw [cB_cons, ih (fun r hr => h r (List.mem_cons_of_mem _ hr)), cB_single,
      h a (List.mem_cons_self _ _)]
    rfl

theorem cM_eq_zero (c : gorep) (x r : report) (h : isEntry r = false) : cM c x [r] = 0 := by
  simp [cM, List.filter_cons, h]

/-- What the goroutine started for a report will send, with what lies below
that, is what lies below the report. -/
theorem spawn_account (c : gorep) (w : World) (depth : Nat) (r : report)
    (hrec : c.bRecursive = true) (hok : dirOK c w depth r) (x : report) :
    cE x (pendingReports (spawnOf c w r)) + cB c w depth x (pendingReports (spawnOf c w r))
      = cB c w depth x [r] := by
  have h01 : FMODE_FILE ≠ FMODE_DIR := by decide
  rcases spawnOf_cases c w r with h | ⟨h, h1, h2, h3⟩ | ⟨h, h1, h2, h3⟩
  · rw [h]
    have hb : below c w depth r = [] := by
      by_cases hc : r.complete = true
      · exact below_of_not_dir c w depth r (Or.inl hc)
      · by_cases hd : r.fmode = FMODE_DIR
        · exfalso
          have hc' : r.complete = false := by simpa using hc
          simp [spawnOf, hc', hd, hrec] at h
        · exact below_of_not_dir c w depth r (Or.inr (Or.inl hd))
    rw [cB_single, hb]
    rfl
  · rw [h, pendingReports_single, dive_account c w depth r.fpath hrec (hok h1 h2 h3) x,
      cB_single]
    simp [below, h1, h2, h3]
  · rw [h, pendingReports_single,
      cE_eq_zero x _ (fun e he => isEntry_of_grep_report e (sends_grep_kind c w _ e he)),
      cB_eq_zero c w depth x _
        (fun e he => below_of_grep_report c w depth e (sends_grep_kind c w _ e he)),
      cB_single, below_of_not_dir c w depth r (Or.inr (Or.inl (h2 ▸ h01)))]
    rfl

theorem spawn_ok (c : gorep) (w : World) (depth : Nat) (r : report)
    (hok : dirOK c w depth r) :
    (∀ l ∈ spawnOf c w r, exits l = false)
    ∧ (∀ e ∈ pendingReports (spawnOf c w r), dirOK c w depth e) := by
  have h02 : FMODE_LINE ≠ FMODE_DIR := by decide
  rcases spawnOf_cases c w r with h | ⟨h, h1, h2, h3⟩ | ⟨h, h1, h2, h3⟩
  · rw [h]; simp [pendingReports]
  · rw [h, pendingReports_single]
    refine ⟨fun l hl => ?_, dive_ok_pending c w depth r.fpath (hok h1 h2 h3)⟩
    simp only [List.mem_singleton] at hl
    subst hl
    exact dive_noexit w depth r.fpath (hok h1 h2 h3)
  · rw [h, pendingReports_single]
    refine ⟨fun l hl => ?_, fun e he hc hm _ => ?_⟩
    · simp only [List.mem_singleton] at hl
      subst hl
      exact grep_noexit c w r.fpath
    · rcases sends_grep_kind c w _ e he with hk | hk
      · rw [hk] at hc; simp at hc
      · exact absurd (hk.symm.trans hm) h02

/-- With `bFind`, what `kick` forwards for a report is the report itself if
it is an entry whose base name matches. -/
theorem notify_account (c : gorep) (r : report) (hfind : c.bFind = true) (x : report) :
    cE x (notifyOf c r) = cM c x [r] := by
  have h02 : FMODE_LINE ≠ FMODE_DIR := by decide
  have h12 : FMODE_LINE ≠ FMODE_FILE := by decide
  unfold notifyOf
  by_cases hc : r.complete = true
  · simp only [hc, if_true]
    rw [cM_eq_zero c x r (by simp [isEntry, hc])]
    rfl
  · have hc' : r.complete = false := by simpa using hc
    simp only [hc', Bool.false_eq_true, if_false]
    by_cases hm : r.fmode = FMODE_DIR ∨ r.fmode = FMODE_FILE
    · have he : isEntry r = true := by
        rcases hm with h | h <;> simp [isEntry, hc', h]
      simp only [hm, if_true, hfind, Bool.true_and]
      by_cases hp : c.pattern (pathBase r.fpath) = true
      · simp [hp, cE, cM, List.filter_cons, he]
      · simp [hp, cE, cM, List.filter_cons, he]
    · simp only [hm, if_false]
      have he : isEntry r = false := by
        simp only [not_or] at hm
        simp [isEntry, hc', hm.1, hm.2]
      rw [cM_eq_zero c x r he]
      by_cases hl : r.fmode = FMODE_LINE
      · simp only [hl, if_true]
        exact cE_eq_zero x [r] (fun e h => by simp only [List.mem_singleton] at h; rw [h]; exact he)
      · simp only [hl, if_false]; rfl

theorem treeInv_start (c : gorep) (w : World) (root : GoString) (depth : Nat)
    (hrec : c.bRecursive = true) (htree : listable w depth root = true) :
    TreeInv c w root depth (kickStart w root) := by
  refine ⟨rfl, ?_, ?_, ?_, ?_, ?_⟩
  · intro l hl
    simp only [kickStart, List.mem_singleton] at hl
    subst hl
    exact dive_noexit w depth root htree
  · intro r hr; simp [kickStart] at hr
  · show ∀ r ∈ pendingReports [dive w root], _
    rw [pendingReports_single]
    exact dive_ok_pending c w depth root htree
  · intro x
    show cE x [] + cE x (pendingReports [dive w root])
      + cB c w depth x (pendingReports [dive w root]) + cB c w depth x [] = _
    rw [pendingReports_single, cE_nil, cB_nil, ← dive_account c w depth root hrec htree x]
    omega
  · intro _ x; rfl

theorem treeInv_move (c : gorep) (w : World) (root : GoString) (depth : Nat)
    (hrec : c.bRecursive = true) (s s' : State) (cinv : CounterInv s)
    (inv : TreeInv c w root depth s) (hm : Move c w s s') : TreeInv c w root depth s' := by
  obtain ⟨halive, hnoexit, hokR, hokP, hacc, hout⟩ := inv
  cases hm with
  | close hx hc hn => exact ⟨halive, hnoexit, hokR, hokP, hacc, hout⟩
  | receive r rest hx hc hn hr =>
    obtain ⟨f1, f2, f3, f4, f5, f6, f7, f8, f9, f10⟩ :=
      kickReceive_fields c w { s with chRelay := rest } r
    dsimp only at f1 f2 f3 f4 f5 f6 f7 f8 f9 f10
    have hokr : dirOK c w depth r := hokR r (by rw [hr]; simp)
    obtain ⟨hsp1, hsp2⟩ := spawn_ok c w depth r hokr
    refine ⟨?_, ?_, ?_, ?_, ?_, ?_⟩
    · rw [f6]; exact halive
    · rw [f3]
      intro l hl
      rcases List.mem_append.mp hl with h | h
      · exact hnoexit l h
      · exact hsp1 l h
    · rw [f2]
      intro e he
      exact hokR e (by rw [hr]; simp [he])
    · rw [f3, pendingReports_append]
      intro e he
      rcases List.mem_append.mp he with h | h
      · exact hokP e h
      · exact hsp2 e h
    · intro x
      rw [f9, f3, f2, pendingReports_append, cE_append, cB_append]
      have h1 := hacc x
      rw [hr, cB_cons] at h1
      have h2 := spawn_account c w depth r hrec hokr x
      omega
    · intro hfind x
      rw [f4, f2, f9, cE_append]
      have h1 := hout hfind x
      rw [hr, cM_cons] at h1
      have h2 := notify_account c r hfind x
      omega
  | send pre post r rest hx hc hr hcap =>
    have hP : pendingReports s.routines
        = pendingReports pre ++ (([r] ++ sends rest) ++ pendingReports post) := by
      rw [hr, pendingReports_split]; rfl
    have hP' : pendingReports (pre ++ rest :: post)
        = pendingReports pre ++ (sends rest ++ pendingReports post) :=
      pendingReports_split pre post rest
    refine ⟨halive, ?_, ?_, ?_, ?_, ?_⟩
    · intro l hl
      show exits l = false
      simp only [List.mem_append, List.mem_cons] at hl
      rcases hl with h | h | h
      · exact hnoexit l (by rw [hr]; simp [h])
      · subst h
        have := hnoexit (Action.send r :: l) (by rw [hr]; simp)
        simpa [exits] using this
      · exact hnoexit l (by rw [hr]; simp [h])
    · intro e he
      rcases List.mem_append.mp he with h | h
      · exact hokR e h
      · simp only [List.mem_singleton] at h
        subst h
        exact hokP e (by rw [hP]; simp)
    · show ∀ e ∈ pendingReports (pre ++ rest :: post), _
      rw [hP']
      intro e he
      apply hokP e
      rw [hP]
      simp only [List.mem_append] at he ⊢
      rcases he with h | h | h
      · exact Or.inl h
      · exact Or.inr (Or.inl (Or.inr h))
      · exact Or.inr (Or.inr h)
    · intro x
      show cE x (s.relayed ++ [r]) + cE x (pendingReports (pre ++ rest :: post))
        + cB c w depth x (pendingReports (pre ++ rest :: post))
        + cB c w depth x (s.chRelay ++ [r]) = _
      have h1 := hacc x
      rw [hP] at h1
      rw [hP']
      simp only [cE_append, cB_append] at h1 ⊢
      omega
    · intro hfind x
      show cE x s.chNotify + cM c x (s.chRelay ++ [r]) = cM c x (s.relayed ++ [r])
      have h1 := hout hfind x
      simp only [cM_append]
      omega
  | sendClosed pre post r rest hx hc hr =>
    exfalso
    have h0 := (cinv.closed hc).1
    have := (counterInv_zero s cinv h0).1 (Action.send r :: rest) (by rw [hr]; simp)
    simp at this
  | stderr pre post msg rest hx hr =>
    have hP : pendingReports s.routines = pendingReports (pre ++ rest :: post) := by
      rw [hr, pendingReports_split, pendingReports_split]; rfl
    refine ⟨halive, ?_, hokR, ?_, ?_, hout⟩
    · intro l hl
      show exits l = false
      simp only [List.mem_append, List.mem_cons] at hl
      rcases hl with h | h | h
      · exact hnoexit l (by rw [hr]; simp [h])
      · subst h
        have := hnoexit (Action.stderr msg :: l) (by rw [hr]; simp)
        simpa [exits] using this
      · exact hnoexit l (by rw [hr]; simp [h])
    · show ∀ e ∈ pendingReports (pre ++ rest :: post), _
      rw [← hP]; exact hokP
    · intro x
      show cE x s.relayed + cE x (pendingReports (pre ++ rest :: post))
        + cB c w depth x (pendingReports (pre ++ rest :: post))
        + cB c w depth x s.chRelay = _
      rw [← hP]; exact hacc x
  | exit pre post code rest hx hr =>
    exfalso
    have := hnoexit (Action.exit code :: rest) (by rw [hr]; simp)
    simp [exits] at this

/-! ## Every schedule is finite -/

theorem costs_append (c : gorep) (w : World) (l₁ l₂ : List report) :
    costs c w (l₁ ++ l₂) = costs c w l₁ + costs c w l₂ := by
  simp [costs, List.map_append, List.sum_append]

theorem routineWeight_append (c : gorep) (w : World) (depth : Nat) (l₁ l₂ : List Action) :
    routineWeight c w depth (l₁ ++ l₂)
      = routineWeight c w depth l₁ + routineWeight c w depth l₂ := by
  simp [routineWeight, List.map_append, List.sum_append]

theorem routineWeight_cons (c : gorep) (w : World) (depth : Nat) (a : Action)
    (l : List Action) :
    routineWeight c w depth (a :: l) = actionWeight c w depth a + routineWeight c w depth l := by
  simp [routineWeight]

theorem routines_sum_split (c : gorep) (w : World) (depth : Nat)
    (pre post : List (List Action)) (l : List Action) :
    ((pre ++ l :: post).map (routineWeight c w depth)).sum
      = (pre.map (routineWeight c w depth)).sum + routineWeight c w depth l
        + (post.map (routineWeight c w depth)).sum := by
  simp [List.map_append, List.sum_append, Nat.add_assoc]

theorem weight_of_grep_report (c : gorep) (w : World) (depth : Nat) (r : report)
    (h : r.complete = true ∨ r.fmode = FMODE_LINE) : weight c w depth r = 1 := by
  have h02 : FMODE_LINE ≠ FMODE_DIR := by decide
  have h12 : FMODE_LINE ≠ FMODE_FILE := by decide
  unfold weight
  rw [below_of_grep_report c w depth r h]
  have hl : localCost c w r = 0 := by
    unfold localCost
    rcases h with h | h
    · simp [h]
    · simp [h, h02, h12]
  rw [hl]; rfl

theorem routineWeight_le (c : gorep) (w : World) (depth : Nat) (l : List Action)
    (h : ∀ r ∈ sends l, weight c w depth r = 1) :
    routineWeight c w depth l ≤ 2 * l.length := by
  induction l with
  | nil => simp [routineWeight]
  | cons a l ih =>
    rw [routineWeight_cons, List.length_cons]
    cases a with
    | send r =>
      have h1 := h r (by simp [sends])
      have h2 := ih (fun e he => h e (by simp [sends, he]))
      simp only [actionWeight, h1]; omega
    | stderr msg =>
      have h2 := ih (fun e he => h e (by simpa [sends] using he))
      simp only [actionWeight]; omega
    | exit code =>
      have h2 := ih (fun e he => h e (by simpa [sends] using he))
      simp only [actionWeight]; omega

theorem routineWeight_grep (c : gorep) (w : World) (depth : Nat) (fpath : GoString) :
    routineWeight c w depth (grep c w fpath) ≤ 2 * (grep c w fpath).length :=
  routineWeight_le c w depth _
    (fun r hr => weight_of_grep_report c w depth r (sends_grep_kind c w fpath r hr))

/-- The moves the goroutine `dive` on a listable directory causes: two for
its marker and those of the descent. -/
theorem routineWeight_dive (c : gorep) (w : World) (depth : Nat) (p : GoString)
    (hrec : c.bRecursive = true) (h : listable w depth p = true) :
    routineWeight c w depth (dive w p) = 2 + costs c w (descent w depth p) := by
  obtain ⟨list, hr, -, hd⟩ := descent_unfold w depth p h
  rw [hd, dive_ok w p list hr, routineWeight_append]
  have hdone : routineWeight c w depth [Action.send diveDone] = 2 := by
    simp [routineWeight, actionWeight, weight_of_grep_report c w depth diveDone (Or.inl rfl)]
  rw [hdone]
  clear hd hr
  induction list with
  | nil => simp [routineWeight, costs]
  | cons fi list ih =>
    simp only [List.map_cons, List.flatMap_cons]
    rw [routineWeight_cons, costs_append]
    have hw : actionWeight c w depth (Action.send (entryReport p fi))
        = costs c w (entryReport p fi ::
            (if fi.IsDir then descent w depth (p ++ "/".toList ++ fi.Name) else [])) := by
      simp only [actionWeight, weight, below_entryReport c w depth p fi hrec]
      simp only [costs, List.map_cons, List.sum_cons]
      omega
    rw [hw]
    omega

theorem spawn_weight (c : gorep) (w : World) (depth : Nat) (r : report)
    (hrec : c.bRecursive = true) (hok : dirOK c w depth r) :
    ((spawnOf c w r).map (routineWeight c w depth)).sum + 1 ≤ weight c w depth r := by
  have h01 : FMODE_FILE ≠ FMODE_DIR := by decide
  rcases spawnOf_cases c w r with h | ⟨h, h1, h2, h3⟩ | ⟨h, h1, h2, h3⟩
  · rw [h]; simp [weight]; omega
  · rw [h]
    simp only [List.map_cons, List.map_nil, List.sum_cons, List.sum_nil]
    rw [routineWeight_dive c w depth r.fpath hrec (hok h1 h2 h3)]
    have hb : below c w depth r = descent w depth r.fpath := by
      simp [below, h1, h2, h3]
    have hl : localCost c w r = 2 := by
      simp [localCost, h1, h2, h3]
    rw [weight, hb, hl]; omega
  · rw [h]
    simp only [List.map_cons, List.map_nil, List.sum_cons, List.sum_nil]
    have := routineWeight_grep c w depth r.fpath
    have hl : localCost c w r = 2 * (grep c w r.fpath).length := by
      simp [localCost, h1, h2, h3, h01]
    rw [weight, hl]; omega

theorem measure_alive (c : gorep) (w : World) (depth : Nat) (s : State) (hx : s.exited = none) :
    measure c w depth s = 1 + (if s.closed then 0 else 1)
      + (s.routines.map (routineWeight c w depth)).sum
      + (s.chRelay.map (weight c w depth)).sum := by
  simp [measure, hx]

theorem measure_exited (c : gorep) (w : World) (depth : Nat) (s : State) (code : Int)
    (hx : s.exited = some code) : measure c w depth s = 0 := by
  simp [measure, hx]

/-- Every move makes the measure smaller. -/
theorem measure_move (c : gorep) (w : World) (root : GoString) (depth : Nat)
    (hrec : c.bRecursive = true) (s s' : State)
    (inv : TreeInv c w root depth s) (hm : Move c w s s') :
    measure c w depth s' < measure c w depth s := by
  cases hm with
  | close hx hc hn =>
    have h1 := measure_alive c w depth s hx
    have h2 := measure_alive c w depth { s with closed := true } hx
    rw [h1, h2]
    simp [hc]
  | receive r rest hx hc hn hr =>
    obtain ⟨f1, f2, f3, f4, f5, f6, f7, f8, f9, f10⟩ :=
      kickReceive_fields c w { s with chRelay := rest } r
    dsimp only at f1 f2 f3 f4 f5 f6 f7 f8 f9 f10
    have hokr : dirOK c w depth r := inv.okRelay r (by rw [hr]; simp)
    have hsw := spawn_weight c w depth r hrec hokr
    have h1 := measure_alive c w depth s hx
    have h2 := measure_alive c w depth (kickReceive c w { s with chRelay := rest } r)
      (f6.trans hx)
    rw [h1, h2, f5, f3, f2, hr]
    simp only [List.map_append, List.sum_append, List.map_cons, List.sum_cons]
    omega
  | send pre post r rest hx hc hr hcap =>
    have h1 := measure_alive c w depth s hx
    have h2 := measure_alive c w depth
      { s with chRelay := s.chRelay ++ [r], routines := pre ++ rest :: post,
               relayed := s.relayed ++ [r] } hx
    rw [h1, h2, hr]
    dsimp only
    rw [routines_sum_split, routines_sum_split, routineWeight_cons]
    simp only [List.map_append, List.sum_append, List.map_cons, List.map_nil, List.sum_cons,
      List.sum_nil, actionWeight]
    omega
  | sendClosed pre post r rest hx hc hr =>
    rw [measure_alive c w depth s hx, measure_exited c w depth _ 2 rfl]
    omega
  | stderr pre post msg rest hx hr =>
    have h1 := measure_alive c w depth s hx
    have h2 := measure_alive c w depth
      { s with stderr := s.stderr ++ [msg], routines := pre ++ rest :: post } hx
    rw [h1, h2, hr]
    dsimp only
    rw [routines_sum_split, routines_sum_split, routineWeight_cons]
    simp only [actionWeight]
    omega
  | exit pre post code rest hx hr =>
    rw [measure_alive c w depth s hx, measure_exited c w depth _ code rfl]
    omega

/-- As long as `kick` has not closed the channels, some party can move. -/
theorem progress (c : gorep) (w : World) (s : State) (cinv : CounterInv s)
    (hx : s.exited = none) (hc : s.closed = false) :
    ∃ l s', step c w l s = some s' := by
  by_cases hn : 0 < s.nRoutines
  · cases hr : s.chRelay with
    | cons r rest =>
      refine ⟨Label.kick, ?_⟩
      simp [step, stepKick, hx, hc, hn, hr]
    | nil =>
      have hcount := cinv.count
      rw [hr] at hcount
      have hpos : 0 < unfinished s.routines := by
        simp only [markersIn, List.countP_nil] at hcount
        omega
      unfold unfinished at hpos
      rw [List.countP_pos_iff] at hpos
      obtain ⟨body, hmem, hne⟩ := hpos
      obtain ⟨i, hi⟩ := List.getElem?_of_mem hmem
      cases body with
      | nil => simp at hne
      | cons a rest =>
        cases a with
        | send r =>
          refine ⟨Label.go i, ?_⟩
          simp [step, stepGo, hx, hi, hc, hr, relayCapacity]
        | stderr msg =>
          refine ⟨Label.go i, ?_⟩
          simp [step, stepGo, hx, hi]
        | exit code =>
          refine ⟨Label.go i, ?_⟩
          simp [step, stepGo, hx, hi]
  · refine ⟨Label.kick, ?_⟩
    simp [step, stepKick, hx, hc, hn]

/-- A schedule is no longer than the measure of the state it starts in. -/
theorem run_bound (c : gorep) (w : World) (root : GoString) (depth : Nat)
    (hrec : c.bRecursive = true) :
    ∀ (ls : List Label) (s0 s : State), CounterInv s0 → TreeInv c w root depth s0 →
      run c w ls s0 = some s → ls.length + measure c w depth s ≤ measure c w depth s0 := by
  intro ls
  induction ls with
  | nil =>
    intro s0 s _ _ h
    simp only [run, Option.some.injEq] at h
    subst h; simp
  | cons l ls ih =>
    intro s0 s cinv inv h
    simp only [run] at h
    cases hs : step c w l s0 with
    | none => simp [hs] at h
    | some s1 =>
      simp only [hs] at h
      have hm := step_move c w l s0 s1 hs
      have h1 := measure_move c w root depth hrec s0 s1 inv hm
      have h2 := ih s1 s (counterInv_move c w s0 s1 cinv hm)
        (treeInv_move c w root depth hrec s0 s1 cinv inv hm) h
      simp only [List.length_cons]
      omega

theorem treeInv_reachable (c : gorep) (w : World) (root : GoString) (depth : Nat)
    (hrec : c.bRecursive = true) (htree : listable w depth root = true) (s : State)
    (h : Reachable c w root s) : CounterInv s ∧ TreeInv c w root depth s :=
  reachable_induction c w root (fun s => CounterInv s ∧ TreeInv c w root depth s)
    ⟨counterInv_start w root, treeInv_start c w root depth hrec htree⟩
    (fun s s' inv hm => ⟨counterInv_move c w s s' inv.1 hm,
      treeInv_move c w root depth hrec s s' inv.1 inv.2 hm⟩) s h

theorem pendingReports_finished (routines : List (List Action))
    (h : ∀ l ∈ routines, l = []) : pendingReports routines = [] := by
  induction routines with
  | nil => rfl
  | cons a l ih =>
    have ha := h a (List.mem_cons_self _ _)
    subst ha
    simpa [pendingReports, sends] using ih (fun x hx => h x (List.mem_cons_of_mem _ hx))

/-- C1 (as amended): on a finite tree all of whose directories can be
listed, a run with `-r` takes a bounded number of moves, can always go on
until `kick` closes the channels, and never ends early; when the channels are
closed, the entry reports sent on `chRelay` are the entries of the recursive
descent from the root, each exactly once, and with `bFind` the entry reports
forwarded to `chNotify` are those among them whose base name the pattern
matches, each exactly once. -/
theorem kick_recursive_descent (c : gorep) (w : World) (root : GoString) (depth : Nat)
    (hrec : c.bRecursive = true) (htree : listable w depth root = true) :
    (∃ bound, ∀ ls s, run c w ls (kickStart w root) = some s → ls.length ≤ bound)
    ∧ (∀ s, Reachable c w root s →
        s.exited = none ∧ (s.closed = false → ∃ l s', step c w l s = some s'))
    ∧ (∀ s, Reachable c w root s → s.closed = true →
        List.Perm (s.relayed.filter isEntry) (descent w depth root)
        ∧ (c.bFind = true →
            List.Perm (s.chNotify.filter isEntry)
              ((descent w depth root).filter (fun r => c.pattern (pathBase r.fpath))))) := by
  refine ⟨⟨measure c w depth (kickStart w root), fun ls s h => ?_⟩, fun s h => ?_,
    fun s h hc => ?_⟩
  · have := run_bound c w root depth hrec ls _ s (counterInv_start w root)
      (treeInv_start c w root depth hrec htree) h
    omega
  · obtain ⟨cinv, inv⟩ := treeInv_reachable c w root depth hrec htree s h
    exact ⟨inv.alive, fun hc => progress c w s cinv inv.alive hc⟩
  · obtain ⟨cinv, inv⟩ := treeInv_reachable c w root depth hrec htree s h
    obtain ⟨hfin, hrelay⟩ := counterInv_zero s cinv (cinv.closed hc).1
    have hpend := pendingReports_finished s.routines hfin
    have hperm : List.Perm (s.relayed.filter isEntry) (descent w depth root) := by
      rw [List.perm_iff_count]
      intro x
      have := inv.account x
      rw [hpend, hrelay, cE_nil, cB_nil] at this
      simpa [cE] using this
    refine ⟨hperm, fun hfind => ?_⟩
    rw [List.perm_iff_count]
    intro x
    have h1 := inv.output hfind x
    rw [hrelay, cM_nil] at h1
    have h2 := (hperm.filter (fun r => c.pattern (pathBase r.fpath))).count_eq x
    simp only [cE, cM, Nat.add_zero] at h1
    rw [h1, h2]

/-- Scenario A: the three entries of the tree are sent, each once, and
`root/a.txt` is the one forwarded. -/
theorem kick_recursive_descent_witness :
    List.Perm (scenarioAEnd.relayed.filter isEntry)
        [entryReport "root".toList { Name := "a.txt".toList, IsDir := false },
         entryReport "root".toList { Name := "sub".toList, IsDir := true },
         entryReport "root/sub".toList { Name := "b.txt".toList, IsDir := false }]
    ∧ (scenarioAOptions.bFind = true →
        List.Perm (scenarioAEnd.chNotify.filter isEntry)
          ((descent scenarioA 2 "root".toList).filter
            (fun r => scenarioAOptions.pattern (pathBase r.fpath)))) :=
  (kick_recursive_descent scenarioAOptions scenarioA "root".toList 2 rfl (by decide)).2.2
    scenarioAEnd scenarioAEnd_reachable (by decide)

/-- C1 fails on a tree with a directory that cannot be listed: in
`perm/{locked/, z.txt}` the goroutine `dive` on `perm/locked` ends the
process, after which nothing moves, and the file `perm/z.txt`, an entry of
the descent from the root, was never sent on `chRelay`. -/
theorem kick_unreadable_counterexample :
    run scenarioAOptions lockedWorld lockedSchedule (kickStart lockedWorld "perm".toList)
      = some lockedEnd
    ∧ lockedEnd.exited = some 1
    ∧ lockedEnd.closed = false
    ∧ (∀ l, step scenarioAOptions lockedWorld l lockedEnd = none)
    ∧ entryReport "perm".toList { Name := "z.txt".toList, IsDir := false }
        ∈ descent lockedWorld 2 "perm".toList
    ∧ entryReport "perm".toList { Name := "z.txt".toList, IsDir := false }
        ∉ lockedEnd.relayed := by
  have hx : lockedEnd.exited = some 1 := by decide
  refine ⟨by decide, hx, by decide, fun l => ?_, by decide, by decide⟩
  simp [step, hx]

end Gorep
